import Mathlib

/-! Maze generator (randomized depth-first search): embedding and properties.

A shallow embedding of `maze.go`: the grid of cells, the backtracking stack and
the single-step transition `step`, followed by the invariants of the
generation loop.

Modelling conventions.

* Go `int` coordinates are `Int`. All coordinates the program computes are in
  `[-1, W] × [-1, H]`, far from the 64-bit limits, so no wrap-around is modelled.
* `[][]*Cell` is a list of rows, each a list of cells. Every cell is allocated
  once in `NewGame` and never aliased, so cells are values. An index expression
  `g.grid[y][x]` that would panic (negative or too large index) is `none`.
* The constants `GridWidth`/`GridHeight` are parameters `W H` of the
  functions; the compiled program uses `GridWidth = GridHeight = 20`.
* `rand.Intn(n)` is modelled by an entropy argument `r : Nat` reduced modulo
  `n`; every value of `[0, n)` is obtained for some `r`. A run takes one entropy
  value per call of `step` (unused when the step does not call `rand.Intn`).
-/

namespace Maze

/-! ## Constants -/

def ScreenHeight : Nat := 800
def ScreenWidth : Nat := 800
def GridSize : Nat := 40
def GridWidth : Nat := ScreenWidth / GridSize
def GridHeight : Nat := ScreenHeight / GridSize
def StepDelay : Int := 1

/-! ## Data model -/

/-- One grid square: `visited` and the four walls, indexed North=0, East=1,
South=2, West=3. -/
structure Cell where
  visited : Bool
  walls : Fin 4 → Bool

/-- The grid: a list of rows (`grid[y][x]`). -/
abbrev Grid := List (List Cell)

/-- The generator state. -/
structure Game where
  grid : Grid
  stack : List (Int × Int)
  current : Int × Int
  frame : Int

/-- Read `grid[y][x]`; `none` when the index expression would panic. -/
def cellAt (grid : Grid) (x y : Int) : Option Cell :=
  if 0 ≤ x ∧ 0 ≤ y then
    match grid[y.toNat]? with
    | some row => row[x.toNat]?
    | none => none
  else none

/-- Update the cell `grid[y][x]` in place by `f`; `none` when the index
expression would panic. -/
def modifyCell (grid : Grid) (x y : Int) (f : Cell → Cell) : Option Grid :=
  if 0 ≤ x ∧ 0 ≤ y then
    match grid[y.toNat]? with
    | some row =>
      match row[x.toNat]? with
      | some c => some (grid.set y.toNat (row.set x.toNat (f c)))
      | none => none
    | none => none
  else none

/-- The assignment `grid[y][x].walls[k] = false`. -/
def clearWall (grid : Grid) (x y : Int) (k : Fin 4) : Option Grid :=
  modifyCell grid x y (fun c => { c with walls := Function.update c.walls k false })

/-- The assignment `grid[y][x].visited = true`. -/
def markVisited (grid : Grid) (x y : Int) : Option Grid :=
  modifyCell grid x y (fun c => { c with visited := true })

/-! ## Operations -/

/-- The two loops of `NewGame`: `GridHeight` rows of `GridWidth` freshly allocated cells
`&Cell{walls: [4]bool{true, true, true, true}}`. -/
def blankGrid (W H : Nat) : Grid :=
  List.replicate H (List.replicate W { visited := false, walls := fun _ => true })

/-- The function `NewGame`: a `GridHeight × GridWidth` grid of unvisited, fully
walled cells, the start cell marked visited. The outer `Option` is `none` when
`game.grid[0][0]` panics; the second component is the returned Go `error`
(always `nil`, here `none`). -/
def NewGame (W H : Nat) : Option (Game × Option String) :=
  let grid : Grid := blankGrid W H
  let game : Game := { grid := grid, stack := [(0, 0)], current := (0, 0), frame := 0 }
  match markVisited game.grid 0 0 with
  | some grid1 => some ({ game with grid := grid1 }, none)
  | none => none

/-- The slice `directions` of `getUnvisitedNeighbors`: North, East, South, West. -/
def directions : List (Int × Int) := [(0, -1), (1, 0), (0, 1), (-1, 0)]

/-- One iteration of the loop of `getUnvisitedNeighbors`. The grid is read only
when the four bounds tests succeed (short-circuit `&&`). -/
def neighborStep (W H : Nat) (grid : Grid) (x y : Int)
    (neighbors : List (Int × Int)) (d : Int × Int) : Option (List (Int × Int)) :=
  let nx := x + d.1
  let ny := y + d.2
  if nx ≥ 0 ∧ nx < (W : Int) ∧ ny ≥ 0 ∧ ny < (H : Int) then
    match cellAt grid nx ny with
    | some c => if !c.visited then some (neighbors ++ [(nx, ny)]) else some neighbors
    | none => none
  else some neighbors

/-- The function `getUnvisitedNeighbors`. -/
def getUnvisitedNeighbors (W H : Nat) (grid : Grid) (x y : Int) :
    Option (List (Int × Int)) :=
  directions.foldlM (neighborStep W H grid x y) []

/-- The function `removeWall`. -/
def removeWall (grid : Grid) (x1 y1 x2 y2 : Int) : Option Grid :=
  if x1 - x2 = 1 then
    (clearWall grid x1 y1 3).bind (fun g1 => clearWall g1 x2 y2 1)
  else if x1 - x2 = -1 then
    (clearWall grid x1 y1 1).bind (fun g1 => clearWall g1 x2 y2 3)
  else if y1 - y2 = 1 then
    (clearWall grid x1 y1 0).bind (fun g1 => clearWall g1 x2 y2 2)
  else if y1 - y2 = -1 then
    (clearWall grid x1 y1 2).bind (fun g1 => clearWall g1 x2 y2 0)
  else some grid

/-- The method `step`, with `r` the entropy consumed by `rand.Intn`. -/
def step (W H : Nat) (g : Game) (r : Nat) : Option Game :=
  if g.stack.length > 0 then
    let x := g.current.1
    let y := g.current.2
    match getUnvisitedNeighbors W H g.grid x y with
    | none => none
    | some neighbors =>
      if neighbors.length > 0 then
        match neighbors[r % neighbors.length]? with
        | none => none
        | some next =>
          match removeWall g.grid x y next.1 next.2 with
          | none => none
          | some grid1 =>
            match markVisited grid1 next.1 next.2 with
            | none => none
            | some grid2 =>
              some { g with grid := grid2, stack := g.stack ++ [next], current := next }
      else
        let stack1 := g.stack.dropLast
        if stack1.length > 0 then
          match stack1[stack1.length - 1]? with
          | some top => some { g with stack := stack1, current := top }
          | none => none
        else some { g with stack := stack1 }
  else some g

/-- The method `Update`: every `StepDelay` frames one `step`. -/
def Update (W H : Nat) (g : Game) (r : Nat) : Option Game :=
  let g1 : Game := { g with frame := g.frame + 1 }
  if g1.frame ≥ StepDelay then step W H { g1 with frame := 0 } r
  else some g1

/-- Iterated `step`, one entropy value per call. -/
def steps (W H : Nat) : Game → List Nat → Option Game
  | g, [] => some g
  | g, r :: rs =>
    match step W H g r with
    | some g1 => steps W H g1 rs
    | none => none

/-- The state after `NewGame()` followed by `rs.length` calls of `step`. -/
def run (W H : Nat) (rs : List Nat) : Option Game :=
  match NewGame W H with
  | some p => steps W H p.1 rs
  | none => none

/-! ## Observations on a grid -/

/-- The `visited` flag of cell `p = (x, y)` (`false` outside the grid). -/
def visitedAt (grid : Grid) (p : Int × Int) : Bool :=
  match cellAt grid p.1 p.2 with
  | some c => c.visited
  | none => false

/-- Wall `d` of cell `p = (x, y)` (`true` outside the grid). -/
def wallAt (grid : Grid) (p : Int × Int) (d : Fin 4) : Bool :=
  match cellAt grid p.1 p.2 with
  | some c => c.walls d
  | none => true

/-- The coordinate is inside `[0, W) × [0, H)`. -/
def inBounds (W H : Nat) (p : Int × Int) : Prop :=
  0 ≤ p.1 ∧ p.1 < (W : Int) ∧ 0 ≤ p.2 ∧ p.2 < (H : Int)

instance decInBounds (W H : Nat) (p : Int × Int) : Decidable (inBounds W H p) := by
  unfold inBounds; infer_instance

/-- Offset of the neighbour across wall `d` (North, East, South, West). -/
def delta (d : Fin 4) : Int × Int :=
  match d with
  | 0 => (0, -1)
  | 1 => (1, 0)
  | 2 => (0, 1)
  | 3 => (-1, 0)

/-- The direction opposite to `d`. -/
def opp (d : Fin 4) : Fin 4 := d + 2

/-- The neighbour of `p` across wall `d`. -/
def nbr (p : Int × Int) (d : Fin 4) : Int × Int := (p.1 + (delta d).1, p.2 + (delta d).2)

/-- All cells of the `W × H` grid. -/
def cells (W H : Nat) : Finset (Int × Int) :=
  (Finset.Ico (0 : Int) W) ×ˢ (Finset.Ico (0 : Int) H)

/-- Number of cells with `visited == true`. -/
def visitedCount (W H : Nat) (grid : Grid) : Nat :=
  ((cells W H).filter (fun p => visitedAt grid p = true)).card

/-- The boundaries between two adjacent cells of the grid, each named once by
its western cell and `East` (1) or its northern cell and `South` (2). -/
def boundaries (W H : Nat) : Finset ((Int × Int) × Fin 4) :=
  ((cells W H) ×ˢ ({1, 2} : Finset (Fin 4))).filter (fun e => nbr e.1 e.2 ∈ cells W H)

/-- The open boundaries: those whose wall is `false`. -/
def openBoundaries (W H : Nat) (grid : Grid) : Finset ((Int × Int) × Fin 4) :=
  (boundaries W H).filter (fun e => wallAt grid e.1 e.2 = false)

/-- Number of open boundaries (edges of the open-wall graph). -/
def openCount (W H : Nat) (grid : Grid) : Nat := (openBoundaries W H grid).card

/-- One move of the open-wall graph: from `a` to the adjacent cell `b` of the grid
through a wall of `a` that is `false`. -/
def passage (W H : Nat) (grid : Grid) (a b : Int × Int) : Prop :=
  inBounds W H a ∧ inBounds W H b ∧ ∃ d : Fin 4, b = nbr a d ∧ wallAt grid a d = false

/-- Connected by a path of grid-adjacent cells through open walls. -/
def connected (W H : Nat) (grid : Grid) (a b : Int × Int) : Prop :=
  Relation.ReflTransGen (passage W H grid) a b

/-- A state reachable from `NewGame()` by calls of `step`. -/
def Reachable (W H : Nat) (g : Game) : Prop := ∃ rs : List Nat, run W H rs = some g

/-! ## Specification vocabulary -/

/-- The grid has `H` rows of `W` cells. -/
def WellShaped (W H : Nat) (grid : Grid) : Prop :=
  grid.length = H ∧ ∀ row ∈ grid, row.length = W

/-- The four candidate coordinates examined by `getUnvisitedNeighbors`. -/
def candidates (x y : Int) : List (Int × Int) :=
  directions.map (fun d => (x + d.1, y + d.2))

/-- What one call of `step` does, in terms of the observations. -/
inductive StepCase (W H : Nat) (g g1 : Game) : Prop
  | terminal : g.stack = [] → g1 = g → StepCase W H g g1
  | backtrack : g.stack ≠ [] →
      (∀ d, inBounds W H (nbr g.current d) → visitedAt g.grid (nbr g.current d) = true) →
      g1.grid = g.grid → g1.stack = g.stack.dropLast →
      g1.current = (g.stack.dropLast.getLast?).getD g.current → StepCase W H g g1
  | carve (d : Fin 4) : g.stack ≠ [] →
      inBounds W H (nbr g.current d) → visitedAt g.grid (nbr g.current d) = false →
      WellShaped W H g1.grid →
      (∀ p, visitedAt g1.grid p = if p = nbr g.current d then true else visitedAt g.grid p) →
      (∀ p e, wallAt g1.grid p e =
        if (p = g.current ∧ e = d) ∨ (p = nbr g.current d ∧ e = opp d) then false
        else wallAt g.grid p e) →
      g1.stack = g.stack ++ [nbr g.current d] → g1.current = nbr g.current d →
      StepCase W H g g1

/-- The invariant kept by `step` from the state built by `NewGame`. -/
structure Inv (W H : Nat) (g : Game) : Prop where
  shape : WellShaped W H g.grid
  cur : inBounds W H g.current
  top : g.stack ≠ [] → g.stack.getLast? = some g.current
  onStack : ∀ p ∈ g.stack, inBounds W H p ∧ visitedAt g.grid p = true
  origin : visitedAt g.grid (0, 0) = true
  pairing : ∀ p d, inBounds W H p → inBounds W H (nbr p d) →
    wallAt g.grid p d = wallAt g.grid (nbr p d) (opp d)
  openVisited : ∀ p d, inBounds W H p → inBounds W H (nbr p d) → wallAt g.grid p d = false →
    visitedAt g.grid p = true ∧ visitedAt g.grid (nbr p d) = true
  reach : ∀ p, visitedAt g.grid p = true → connected W H g.grid (0, 0) p
  finished : ∀ p, visitedAt g.grid p = true → p ∉ g.stack →
    ∀ d, inBounds W H (nbr p d) → visitedAt g.grid (nbr p d) = true
  count : openCount W H g.grid + 1 = visitedCount W H g.grid

/-- The potential that decreases by one at every non-terminal step. -/
def potential (W H : Nat) (g : Game) : Nat :=
  2 * (W * H - visitedCount W H g.grid) + g.stack.length

/-- The two guards of `step` that select the carving branch: the stack is non-empty and
`getUnvisitedNeighbors` returns a non-empty list for the current cell. -/
def carves (W H : Nat) (g : Game) : Bool :=
  decide (g.stack.length > 0) &&
    match getUnvisitedNeighbors W H g.grid g.current.1 g.current.2 with
    | some neighbors => decide (neighbors.length > 0)
    | none => false

/-- The stack and `current` after `k` calls of `step()` on the 2×2 grid when the random
source always returns index 0. -/
def trace2x2 (k : Nat) : Option (List (Int × Int) × (Int × Int)) :=
  (run 2 2 (List.replicate k 0)).map (fun g => (g.stack, g.current))

/-- The `Step()` operation as worded in the specification (§4.1): the active cell is read
from the top of the frontier stack instead of from `current`; neighbour enumeration, wall
removal and the random choice are those of the program. To be compared with `step`. -/
def specStep (W H : Nat) (g : Game) (r : Nat) : Option Game :=
  match g.stack.getLast? with
  | none => some g
  | some top =>
    match getUnvisitedNeighbors W H g.grid top.1 top.2 with
    | none => none
    | some neighbors =>
      if neighbors.length > 0 then
        match neighbors[r % neighbors.length]? with
        | none => none
        | some next =>
          match removeWall g.grid top.1 top.2 next.1 next.2 with
          | none => none
          | some grid1 =>
            match markVisited grid1 next.1 next.2 with
            | none => none
            | some grid2 =>
              some { g with grid := grid2, stack := g.stack ++ [next], current := next }
      else
        match g.stack.dropLast.getLast? with
        | some newTop => some { g with stack := g.stack.dropLast, current := newTop }
        | none => some { g with stack := g.stack.dropLast }

/-- The stack is non-empty and the current cell has no unvisited neighbour: the guards of
the backtracking branch of `step`. -/
def backtracks (W H : Nat) (g : Game) : Bool :=
  decide (g.stack.length > 0) &&
    match getUnvisitedNeighbors W H g.grid g.current.1 g.current.2 with
    | some neighbors => decide (neighbors.length = 0)
    | none => false

/-- Number of calls of `step`, along the run from `g` with entropy `rs`, made in a state
satisfying `P`. -/
def countSteps (W H : Nat) (P : Game → Bool) : Game → List Nat → Nat
  | _, [] => 0
  | g, r :: rs =>
    (if P g then 1 else 0) +
      match step W H g r with
      | some g1 => countSteps W H P g1 rs
      | none => 0

/-- Two consecutive stack elements: `b` is the neighbour of `a` across a wall that is open
on both sides. -/
def openStep (grid : Grid) (a b : Int × Int) : Prop :=
  ∃ d : Fin 4, b = nbr a d ∧ wallAt grid a d = false ∧ wallAt grid b (opp d) = false

/-- The part of the loop invariant about the shape of the stack and the outer walls. -/
structure PathInv (W H : Nat) (g : Game) : Prop where
  first : g.stack ≠ [] → g.stack.head? = some (0, 0)
  nodup : g.stack.Nodup
  chain : g.stack.Chain' (openStep g.grid)
  outer : ∀ p d, inBounds W H p → ¬ inBounds W H (nbr p d) → wallAt g.grid p d = true

/-! # Proofs -/

/-! ## Grid access lemmas -/

theorem cellAt_of_inBounds {W H : Nat} {grid : Grid} (hs : WellShaped W H grid)
    {p : Int × Int} (hp : inBounds W H p) : ∃ c, cellAt grid p.1 p.2 = some c := by
  obtain ⟨hx0, hxW, hy0, hyH⟩ := hp
  have hy : p.2.toNat < grid.length := by rw [hs.1]; omega
  have hrow : (grid[p.2.toNat]).length = W := hs.2 _ (List.getElem_mem hy)
  have hx : p.1.toNat < (grid[p.2.toNat]).length := by rw [hrow]; omega
  refine ⟨(grid[p.2.toNat])[p.1.toNat], ?_⟩
  simp [cellAt, hx0, hy0, List.getElem?_eq_getElem hy, List.getElem?_eq_getElem hx]

theorem cellAt_eq_none_of_not_inBounds {W H : Nat} {grid : Grid} (hs : WellShaped W H grid)
    {p : Int × Int} (hp : ¬ inBounds W H p) : cellAt grid p.1 p.2 = none := by
  unfold cellAt
  split
  · rename_i h
    obtain ⟨hx0, hy0⟩ := h
    cases hrow : grid[p.2.toNat]? with
    | none => rfl
    | some row =>
      have hy : p.2.toNat < grid.length := by
        by_contra hn
        rw [List.getElem?_eq_none (by omega)] at hrow
        cases hrow
      have hmem : row ∈ grid := by
        rw [List.getElem?_eq_getElem hy] at hrow
        cases hrow
        exact List.getElem_mem hy
      have hlen : row.length = W := hs.2 _ hmem
      simp only
      apply List.getElem?_eq_none
      rw [hlen]
      by_contra hn
      apply hp
      refine ⟨hx0, by omega, hy0, ?_⟩
      rw [hs.1] at hy
      omega
  · rfl

theorem modifyCell_spec {W H : Nat} {grid : Grid} (hs : WellShaped W H grid)
    {q : Int × Int} (hq : inBounds W H q) (f : Cell → Cell) :
    ∃ grid1, modifyCell grid q.1 q.2 f = some grid1 ∧ WellShaped W H grid1 ∧
      ∀ p : Int × Int, cellAt grid1 p.1 p.2 =
        if p = q then (cellAt grid q.1 q.2).map f else cellAt grid p.1 p.2 := by
  obtain ⟨hx0, hxW, hy0, hyH⟩ := hq
  have hy : q.2.toNat < grid.length := by rw [hs.1]; omega
  have hrow : (grid[q.2.toNat]).length = W := hs.2 _ (List.getElem_mem hy)
  have hx : q.1.toNat < (grid[q.2.toNat]).length := by rw [hrow]; omega
  refine ⟨grid.set q.2.toNat ((grid[q.2.toNat]).set q.1.toNat (f (grid[q.2.toNat])[q.1.toNat])),
    ?_, ?_, ?_⟩
  · simp [modifyCell, hx0, hy0, List.getElem?_eq_getElem hy, List.getElem?_eq_getElem hx]
  · refine ⟨by simp [hs.1], ?_⟩
    intro row hmem
    rcases List.mem_or_eq_of_mem_set hmem with h | h
    · exact hs.2 _ h
    · rw [h, List.length_set, hrow]
  · intro p
    by_cases hpq : p = q
    · subst hpq
      rw [if_pos rfl]
      unfold cellAt
      rw [if_pos ⟨hx0, hy0⟩, if_pos ⟨hx0, hy0⟩, List.getElem?_set, if_pos rfl, if_pos hy,
        List.getElem?_eq_getElem hy]
      simp only
      rw [List.getElem?_set, if_pos rfl, if_pos hx, List.getElem?_eq_getElem hx]
      rfl
    · rw [if_neg hpq]
      unfold cellAt
      by_cases hnn : 0 ≤ p.1 ∧ 0 ≤ p.2
      · rw [if_pos hnn, if_pos hnn]
        by_cases hyy : q.2.toNat = p.2.toNat
        · have hxx : q.1.toNat ≠ p.1.toNat := by
            intro hxx
            apply hpq
            have h1 : p.1 = q.1 := by omega
            have h2 : p.2 = q.2 := by omega
            exact Prod.ext h1 h2
          rw [List.getElem?_set, if_pos hyy, if_pos hy]
          simp only
          rw [List.getElem?_set, if_neg hxx, ← hyy, List.getElem?_eq_getElem hy]
        · rw [List.getElem?_set, if_neg hyy]
      · rw [if_neg hnn, if_neg hnn]

theorem markVisited_spec {W H : Nat} {grid : Grid} (hs : WellShaped W H grid)
    {q : Int × Int} (hq : inBounds W H q) :
    ∃ grid1, markVisited grid q.1 q.2 = some grid1 ∧ WellShaped W H grid1 ∧
      (∀ p, visitedAt grid1 p = if p = q then true else visitedAt grid p) ∧
      (∀ p d, wallAt grid1 p d = wallAt grid p d) := by
  obtain ⟨grid1, h1, h2, h3⟩ := modifyCell_spec hs hq (fun c => { c with visited := true })
  obtain ⟨c, hc⟩ := cellAt_of_inBounds hs hq
  refine ⟨grid1, h1, h2, ?_, ?_⟩
  · intro p
    unfold visitedAt
    rw [h3 p]
    by_cases hpq : p = q
    · simp [hpq, hc]
    · simp [hpq]
  · intro p d
    unfold wallAt
    rw [h3 p]
    by_cases hpq : p = q
    · simp [hpq, hc]
    · simp [hpq]

theorem clearWall_spec {W H : Nat} {grid : Grid} (hs : WellShaped W H grid)
    {q : Int × Int} (hq : inBounds W H q) (k : Fin 4) :
    ∃ grid1, clearWall grid q.1 q.2 k = some grid1 ∧ WellShaped W H grid1 ∧
      (∀ p, visitedAt grid1 p = visitedAt grid p) ∧
      (∀ p d, wallAt grid1 p d = if p = q ∧ d = k then false else wallAt grid p d) := by
  obtain ⟨grid1, h1, h2, h3⟩ :=
    modifyCell_spec hs hq (fun c => { c with walls := Function.update c.walls k false })
  obtain ⟨c, hc⟩ := cellAt_of_inBounds hs hq
  refine ⟨grid1, h1, h2, ?_, ?_⟩
  · intro p
    unfold visitedAt
    rw [h3 p]
    by_cases hpq : p = q
    · simp [hpq, hc]
    · simp [hpq]
  · intro p d
    unfold wallAt
    rw [h3 p]
    by_cases hpq : p = q
    · by_cases hd : d = k
      · subst hd
        simp [hpq, hc]
      · simp [hpq, hc, hd, Function.update_noteq hd]
    · simp [hpq]

/-! ## Neighbour enumeration -/

theorem neighborStep_eq {W H : Nat} {grid : Grid} (hs : WellShaped W H grid) (x y : Int)
    (acc : List (Int × Int)) (d : Int × Int) :
    neighborStep W H grid x y acc d =
      some (acc ++ [(x + d.1, y + d.2)].filter
        (fun p => decide (inBounds W H p) && !visitedAt grid p)) := by
  unfold neighborStep
  by_cases hb : inBounds W H (x + d.1, y + d.2)
  · obtain ⟨c, hc⟩ := cellAt_of_inBounds hs hb
    have hb2 := hb
    obtain ⟨h1, h2, h3, h4⟩ := hb2
    simp only [ge_iff_le]
    rw [if_pos ⟨h1, h2, h3, h4⟩]
    simp only at hc
    rw [hc]
    cases hv : c.visited <;> simp [List.filter, hb, visitedAt, hc, hv]
  · have hb2 : ¬ (x + d.1 ≥ 0 ∧ x + d.1 < (W : Int) ∧ y + d.2 ≥ 0 ∧ y + d.2 < (H : Int)) := hb
    simp only
    rw [if_neg hb2]
    simp [List.filter, hb]

theorem foldlM_neighborStep {W H : Nat} {grid : Grid} (hs : WellShaped W H grid) (x y : Int)
    (ds : List (Int × Int)) (acc : List (Int × Int)) :
    ds.foldlM (neighborStep W H grid x y) acc =
      some (acc ++ (ds.map (fun d => (x + d.1, y + d.2))).filter
        (fun p => decide (inBounds W H p) && !visitedAt grid p)) := by
  induction ds generalizing acc with
  | nil => simp
  | cons d ds ih =>
    rw [List.foldlM_cons, neighborStep_eq hs]
    simp only [Option.bind_eq_bind, Option.some_bind]
    rw [ih]
    simp only [List.map_cons, List.append_assoc]
    congr 2
    simp only [List.filter]
    split <;> simp

theorem getUnvisitedNeighbors_eq {W H : Nat} {grid : Grid} (hs : WellShaped W H grid)
    (x y : Int) :
    getUnvisitedNeighbors W H grid x y =
      some ((candidates x y).filter (fun p => decide (inBounds W H p) && !visitedAt grid p)) := by
  unfold getUnvisitedNeighbors candidates
  rw [foldlM_neighborStep hs]
  simp

theorem mem_candidates (x y : Int) (p : Int × Int) :
    p ∈ candidates x y ↔ ∃ d : Fin 4, p = nbr (x, y) d := by
  constructor
  · intro h
    simp only [candidates, directions, List.map_cons, List.map_nil, List.mem_cons,
      List.mem_singleton, List.not_mem_nil, or_false] at h
    rcases h with h | h | h | h
    · exact ⟨0, h⟩
    · exact ⟨1, h⟩
    · exact ⟨2, h⟩
    · exact ⟨3, h⟩
  · rintro ⟨d, rfl⟩
    fin_cases d <;> simp [candidates, directions, nbr, delta]

theorem mem_neighbors {W H : Nat} {grid : Grid} (x y : Int) (p : Int × Int) :
    p ∈ (candidates x y).filter (fun p => decide (inBounds W H p) && !visitedAt grid p) ↔
      (∃ d : Fin 4, p = nbr (x, y) d) ∧ inBounds W H p ∧ visitedAt grid p = false := by
  rw [List.mem_filter, mem_candidates]
  simp

/-! ## Effect of `removeWall` and `step` on the observations -/

theorem removeWall_spec {W H : Nat} {grid : Grid} (hs : WellShaped W H grid)
    {a : Int × Int} (ha : inBounds W H a) (d : Fin 4) (hb : inBounds W H (nbr a d)) :
    ∃ grid1, removeWall grid a.1 a.2 (nbr a d).1 (nbr a d).2 = some grid1 ∧
      WellShaped W H grid1 ∧
      (∀ p, visitedAt grid1 p = visitedAt grid p) ∧
      (∀ p e, wallAt grid1 p e =
        if (p = a ∧ e = d) ∨ (p = nbr a d ∧ e = opp d) then false else wallAt grid p e) := by
  have key : ∀ k1 k2 : Fin 4, k1 = d → k2 = opp d →
      ∃ grid1, (clearWall grid a.1 a.2 k1).bind
          (fun g1 => clearWall g1 (nbr a d).1 (nbr a d).2 k2) = some grid1 ∧
        WellShaped W H grid1 ∧
        (∀ p, visitedAt grid1 p = visitedAt grid p) ∧
        (∀ p e, wallAt grid1 p e =
          if (p = a ∧ e = d) ∨ (p = nbr a d ∧ e = opp d) then false else wallAt grid p e) := by
    intro k1 k2 h1 h2
    subst h1 h2
    obtain ⟨g1, e1, s1, v1, w1⟩ := clearWall_spec hs ha k1
    obtain ⟨g2, e2, s2, v2, w2⟩ := clearWall_spec s1 hb (opp k1)
    refine ⟨g2, by rw [e1]; exact e2, s2, fun p => by rw [v2, v1], ?_⟩
    intro p e
    rw [w2, w1]
    by_cases c1 : p = a ∧ e = k1 <;> by_cases c2 : p = nbr a k1 ∧ e = opp k1 <;> simp [c1, c2]
  unfold removeWall
  fin_cases d
  · have h1 : ¬ (a.1 - (nbr a 0).1 = 1) := by simp [nbr, delta]
    have h2 : ¬ (a.1 - (nbr a 0).1 = -1) := by simp [nbr, delta]
    have h3 : a.2 - (nbr a 0).2 = 1 := by simp [nbr, delta]
    simp only [Fin.zero_eta]
    rw [if_neg h1, if_neg h2, if_pos h3]
    exact key 0 2 rfl rfl
  · have h2 : a.1 - (nbr a 1).1 = -1 := by simp [nbr, delta]
    have h1 : ¬ (a.1 - (nbr a 1).1 = 1) := by rw [h2]; decide
    simp only [Fin.mk_one]
    rw [if_neg h1, if_pos h2]
    exact key 1 3 rfl rfl
  · have h1 : ¬ (a.1 - (nbr a 2).1 = 1) := by simp [nbr, delta]
    have h2 : ¬ (a.1 - (nbr a 2).1 = -1) := by simp [nbr, delta]
    have h4 : a.2 - (nbr a 2).2 = -1 := by simp [nbr, delta]
    have h3 : ¬ (a.2 - (nbr a 2).2 = 1) := by rw [h4]; decide
    simp only [Fin.reduceFinMk]
    rw [if_neg h1, if_neg h2, if_neg h3, if_pos h4]
    exact key 2 0 rfl rfl
  · have h1 : a.1 - (nbr a 3).1 = 1 := by simp [nbr, delta]
    simp only [Fin.reduceFinMk]
    rw [if_pos h1]
    exact key 3 1 rfl rfl

theorem step_spec {W H : Nat} {g : Game} (hs : WellShaped W H g.grid)
    (hc : inBounds W H g.current) (r : Nat) :
    ∃ g1, step W H g r = some g1 ∧ StepCase W H g g1 := by
  unfold step
  by_cases hst : g.stack = []
  · refine ⟨g, ?_, StepCase.terminal hst rfl⟩
    simp [hst]
  · have hlen : g.stack.length > 0 := List.length_pos.mpr hst
    rw [if_pos hlen]
    simp only
    rw [getUnvisitedNeighbors_eq hs]
    simp only
    generalize hN : (candidates g.current.1 g.current.2).filter
      (fun p => decide (inBounds W H p) && !visitedAt g.grid p) = neighbors
    by_cases hnb : neighbors = []
    · subst hnb
      have hall : ∀ d, inBounds W H (nbr g.current d) →
          visitedAt g.grid (nbr g.current d) = true := by
        intro d hd
        by_contra hv
        have hmem : nbr g.current d ∈ (candidates g.current.1 g.current.2).filter
            (fun p => decide (inBounds W H p) && !visitedAt g.grid p) := by
          rw [mem_neighbors]
          exact ⟨⟨d, rfl⟩, hd, by simpa using hv⟩
        rw [hN] at hmem
        cases hmem
      simp only [List.length_nil, gt_iff_lt, lt_self_iff_false, ↓reduceIte]
      by_cases hd : g.stack.dropLast = []
      · have hl0 : ¬ (0 < g.stack.dropLast.length) := by rw [hd]; simp
        rw [if_neg hl0]
        exact ⟨_, rfl, StepCase.backtrack hst hall rfl rfl (by simp [hd])⟩
      · have hl0 : 0 < g.stack.dropLast.length := List.length_pos.mpr hd
        rw [if_pos hl0, ← List.getLast?_eq_getElem?]
        cases hl : g.stack.dropLast.getLast? with
        | none => exact absurd (List.getLast?_eq_none_iff.mp hl) hd
        | some top =>
          exact ⟨_, rfl, StepCase.backtrack hst hall rfl rfl (by simp [hl])⟩
    · have hpos : neighbors.length > 0 := List.length_pos.mpr hnb
      rw [if_pos hpos]
      have hidx : r % neighbors.length < neighbors.length := Nat.mod_lt _ hpos
      rw [List.getElem?_eq_getElem hidx]
      simp only
      have hmem : neighbors[r % neighbors.length] ∈ neighbors := List.getElem_mem hidx
      generalize neighbors[r % neighbors.length] = next at hmem
      rw [← hN, mem_neighbors] at hmem
      obtain ⟨⟨d, hd⟩, hnb2, hnv⟩ := hmem
      have hd2 : next = nbr g.current d := hd
      subst hd2
      obtain ⟨grid1, e1, s1, v1, w1⟩ := removeWall_spec hs hc d hnb2
      obtain ⟨grid2, e2, s2, v2, w2⟩ := markVisited_spec s1 hnb2
      rw [e1]
      simp only
      rw [e2]
      refine ⟨_, rfl, StepCase.carve d hst hnb2 hnv s2 ?_ ?_ rfl rfl⟩
      · intro p
        simp only
        rw [v2, v1]
      · intro p e
        simp only
        rw [w2, w1]

/-! ## Directions -/

theorem opp_opp (d : Fin 4) : opp (opp d) = d := by
  fin_cases d <;> rfl

theorem opp_injective {d e : Fin 4} (h : opp d = opp e) : d = e := by
  rw [← opp_opp d, h, opp_opp]

theorem nbr_nbr_opp (p : Int × Int) (d : Fin 4) : nbr (nbr p d) (opp d) = p := by
  fin_cases d <;> simp [nbr, delta, opp]

theorem nbr_left_injective {p q : Int × Int} {d : Fin 4} (h : nbr p d = nbr q d) : p = q := by
  rw [← nbr_nbr_opp p d, h, nbr_nbr_opp]

theorem nbr_ne_self (p : Int × Int) (d : Fin 4) : nbr p d ≠ p := by
  intro h
  have h1 := congrArg Prod.fst h
  have h2 := congrArg Prod.snd h
  fin_cases d <;> simp [nbr, delta] at h1 h2

theorem mem_cells {W H : Nat} {p : Int × Int} : p ∈ cells W H ↔ inBounds W H p := by
  simp [cells, inBounds, and_assoc]

theorem inBounds_of_visitedAt {W H : Nat} {grid : Grid} (hs : WellShaped W H grid)
    {p : Int × Int} (hv : visitedAt grid p = true) : inBounds W H p := by
  by_contra hn
  rw [visitedAt, cellAt_eq_none_of_not_inBounds hs hn] at hv
  cases hv

/-! ## The initial state -/

theorem blankGrid_wellShaped (W H : Nat) : WellShaped W H (blankGrid W H) := by
  refine ⟨by simp [blankGrid], ?_⟩
  intro row hrow
  rw [blankGrid, List.mem_replicate] at hrow
  rw [hrow.2]
  simp

theorem cellAt_blankGrid (W H : Nat) (p : Int × Int) (c : Cell)
    (h : cellAt (blankGrid W H) p.1 p.2 = some c) :
    c = { visited := false, walls := fun _ => true } := by
  unfold cellAt blankGrid at h
  split at h
  · rw [List.getElem?_replicate] at h
    by_cases hy : p.2.toNat < H
    · rw [if_pos hy] at h
      simp only at h
      rw [List.getElem?_replicate] at h
      by_cases hx : p.1.toNat < W
      · rw [if_pos hx] at h
        cases h
        rfl
      · rw [if_neg hx] at h
        cases h
    · rw [if_neg hy] at h
      cases h
  · cases h

theorem visitedAt_blankGrid (W H : Nat) (p : Int × Int) :
    visitedAt (blankGrid W H) p = false := by
  unfold visitedAt
  cases h : cellAt (blankGrid W H) p.1 p.2 with
  | none => rfl
  | some c => rw [cellAt_blankGrid W H p c h]

theorem wallAt_blankGrid (W H : Nat) (p : Int × Int) (d : Fin 4) :
    wallAt (blankGrid W H) p d = true := by
  unfold wallAt
  cases h : cellAt (blankGrid W H) p.1 p.2 with
  | none => rfl
  | some c => rw [cellAt_blankGrid W H p c h]

theorem origin_inBounds {W H : Nat} (hW : 0 < W) (hH : 0 < H) : inBounds W H (0, 0) := by
  refine ⟨le_refl _, ?_, le_refl _, ?_⟩ <;> simp only <;> omega

theorem NewGame_spec {W H : Nat} (hW : 0 < W) (hH : 0 < H) :
    ∃ g, NewGame W H = some (g, none) ∧ WellShaped W H g.grid ∧
      (∀ p, visitedAt g.grid p = decide (p = (0, 0))) ∧
      (∀ p d, wallAt g.grid p d = true) ∧
      g.stack = [(0, 0)] ∧ g.current = (0, 0) ∧ g.frame = 0 := by
  obtain ⟨grid1, e1, s1, v1, w1⟩ :=
    markVisited_spec (blankGrid_wellShaped W H) (origin_inBounds hW hH)
  refine ⟨{ grid := grid1, stack := [(0, 0)], current := (0, 0), frame := 0 }, ?_, s1, ?_, ?_,
    rfl, rfl, rfl⟩
  · have e2 : markVisited (blankGrid W H) 0 0 = some grid1 := e1
    unfold NewGame
    simp only
    rw [e2]
  · intro p
    simp only
    rw [v1, visitedAt_blankGrid]
    by_cases hp : p = (0, 0) <;> simp [hp]
  · intro p d
    simp only
    rw [w1, wallAt_blankGrid]

/-! ## Counting visited cells and open boundaries -/

theorem visitedCount_le (W H : Nat) (grid : Grid) : visitedCount W H grid ≤ W * H := by
  unfold visitedCount
  refine le_trans (Finset.card_filter_le _ _) ?_
  simp [cells]

theorem visitedCount_eq_of_all {W H : Nat} {grid : Grid}
    (h : ∀ p, inBounds W H p → visitedAt grid p = true) : visitedCount W H grid = W * H := by
  unfold visitedCount
  rw [Finset.filter_true_of_mem (fun p hp => h p (mem_cells.mp hp))]
  simp [cells]

theorem visitedCount_mark {W H : Nat} {grid grid1 : Grid} {n : Int × Int}
    (hn : inBounds W H n) (hv : visitedAt grid n = false)
    (h : ∀ p, visitedAt grid1 p = if p = n then true else visitedAt grid p) :
    visitedCount W H grid1 = visitedCount W H grid + 1 := by
  unfold visitedCount
  have hset : (cells W H).filter (fun p => visitedAt grid1 p = true) =
      insert n ((cells W H).filter (fun p => visitedAt grid p = true)) := by
    ext p
    simp only [Finset.mem_filter, Finset.mem_insert, h p]
    by_cases hp : p = n
    · subst hp
      simp [mem_cells, hn]
    · simp [hp]
  rw [hset, Finset.card_insert_of_not_mem]
  simp [hv]

theorem mem_boundaries {W H : Nat} {e : (Int × Int) × Fin 4} :
    e ∈ boundaries W H ↔
      inBounds W H e.1 ∧ (e.2 = 1 ∨ e.2 = 2) ∧ inBounds W H (nbr e.1 e.2) := by
  simp [boundaries, mem_cells, and_assoc]

theorem openCount_carve {W H : Nat} {grid grid1 : Grid} {a : Int × Int} {d : Fin 4}
    (ha : inBounds W H a) (hb : inBounds W H (nbr a d))
    (hc1 : wallAt grid a d = true) (hc2 : wallAt grid (nbr a d) (opp d) = true)
    (h : ∀ p e, wallAt grid1 p e =
      if (p = a ∧ e = d) ∨ (p = nbr a d ∧ e = opp d) then false else wallAt grid p e) :
    openCount W H grid1 = openCount W H grid + 1 := by
  unfold openCount openBoundaries
  have hw : ∀ p e, wallAt grid1 p e = false ↔
      ((p = a ∧ e = d) ∨ (p = nbr a d ∧ e = opp d)) ∨ wallAt grid p e = false := by
    intro p e
    rw [h p e]
    by_cases c : (p = a ∧ e = d) ∨ (p = nbr a d ∧ e = opp d) <;> simp [c]
  have hback : nbr (nbr a d) (opp d) = a := nbr_nbr_opp a d
  by_cases hd : d = 1 ∨ d = 2
  · have hset : (boundaries W H).filter (fun e => wallAt grid1 e.1 e.2 = false) =
        insert (a, d) ((boundaries W H).filter (fun e => wallAt grid e.1 e.2 = false)) := by
      ext ⟨p, e⟩
      simp only [Finset.mem_filter, Finset.mem_insert, mem_boundaries, hw, Prod.mk.injEq]
      constructor
      · rintro ⟨⟨hp, he, hq⟩, (⟨h1, h2⟩ | ⟨h1, h2⟩) | h3⟩
        · exact Or.inl ⟨h1, h2⟩
        · exfalso
          rcases hd with hd | hd <;> rcases he with he | he <;> subst hd he <;>
            exact absurd h2 (by decide)
        · exact Or.inr ⟨⟨hp, he, hq⟩, h3⟩
      · rintro (⟨h1, h2⟩ | ⟨hm, h3⟩)
        · subst h1 h2
          exact ⟨⟨ha, hd, hb⟩, Or.inl (Or.inl ⟨rfl, rfl⟩)⟩
        · exact ⟨hm, Or.inr h3⟩
    rw [hset, Finset.card_insert_of_not_mem]
    simp [hc1]
  · have hd2 : opp d = 1 ∨ opp d = 2 := by
      fin_cases d <;> simp [opp] at hd ⊢
    have hset : (boundaries W H).filter (fun e => wallAt grid1 e.1 e.2 = false) =
        insert (nbr a d, opp d)
          ((boundaries W H).filter (fun e => wallAt grid e.1 e.2 = false)) := by
      ext ⟨p, e⟩
      simp only [Finset.mem_filter, Finset.mem_insert, mem_boundaries, hw, Prod.mk.injEq]
      constructor
      · rintro ⟨⟨hp, he, hq⟩, (⟨h1, h2⟩ | ⟨h1, h2⟩) | h3⟩
        · exfalso
          subst h2
          exact hd he
        · exact Or.inl ⟨h1, h2⟩
        · exact Or.inr ⟨⟨hp, he, hq⟩, h3⟩
      · rintro (⟨h1, h2⟩ | ⟨hm, h3⟩)
        · subst h1 h2
          refine ⟨⟨hb, hd2, ?_⟩, Or.inl (Or.inr ⟨rfl, rfl⟩)⟩
          rw [hback]
          exact ha
        · exact ⟨hm, Or.inr h3⟩
    rw [hset, Finset.card_insert_of_not_mem]
    simp [hc2]

theorem openCount_eq_zero {W H : Nat} {grid : Grid} (h : ∀ p d, wallAt grid p d = true) :
    openCount W H grid = 0 := by
  unfold openCount openBoundaries
  rw [Finset.card_eq_zero, Finset.filter_eq_empty_iff]
  intro e _
  simp [h]

/-! ## The invariant of the generation loop -/

theorem Inv_NewGame {W H : Nat} (hW : 0 < W) (hH : 0 < H) :
    ∃ g, NewGame W H = some (g, none) ∧ Inv W H g := by
  obtain ⟨g, hg, hs, hv, hw, hst, hcur, _⟩ := NewGame_spec hW hH
  have h0 : inBounds W H (0, 0) := origin_inBounds hW hH
  refine ⟨g, hg, ?_⟩
  constructor
  · exact hs
  · rw [hcur]; exact h0
  · intro _; rw [hst, hcur]; rfl
  · intro p hp
    rw [hst, List.mem_singleton] at hp
    subst hp
    exact ⟨h0, by rw [hv]; simp⟩
  · rw [hv]; simp
  · intro p d _ _
    rw [hw, hw]
  · intro p d _ _ h
    rw [hw] at h
    cases h
  · intro p hp
    rw [hv] at hp
    have : p = (0, 0) := by simpa using hp
    subst this
    exact Relation.ReflTransGen.refl
  · intro p hp hns
    rw [hv] at hp
    have : p = (0, 0) := by simpa using hp
    subst this
    rw [hst] at hns
    exact absurd (List.mem_singleton.mpr rfl) hns
  · rw [openCount_eq_zero hw]
    unfold visitedCount
    have hset : (cells W H).filter (fun p => visitedAt g.grid p = true) = {(0, 0)} := by
      ext p
      simp only [Finset.mem_filter, Finset.mem_singleton, hv, decide_eq_true_eq, mem_cells]
      constructor
      · exact fun h => h.2
      · intro h
        subst h
        exact ⟨h0, rfl⟩
    rw [hset]
    rfl

theorem passage_mono {W H : Nat} {grid grid1 : Grid}
    (h : ∀ p d, wallAt grid p d = false → wallAt grid1 p d = false) {a b : Int × Int}
    (hab : passage W H grid a b) : passage W H grid1 a b := by
  obtain ⟨ha, hb, d, hd, hw⟩ := hab
  exact ⟨ha, hb, d, hd, h a d hw⟩

theorem connected_mono {W H : Nat} {grid grid1 : Grid}
    (h : ∀ p d, wallAt grid p d = false → wallAt grid1 p d = false) {a b : Int × Int}
    (hab : connected W H grid a b) : connected W H grid1 a b :=
  Relation.ReflTransGen.mono (fun _ _ => passage_mono h) hab

theorem current_visited {W H : Nat} {g : Game} (hi : Inv W H g) (hst : g.stack ≠ []) :
    visitedAt g.grid g.current = true :=
  (hi.onStack _ (List.mem_of_getLast?_eq_some (hi.top hst))).2

theorem Inv_backtrack {W H : Nat} {g g1 : Game} (hi : Inv W H g) (hst : g.stack ≠ [])
    (hall : ∀ d, inBounds W H (nbr g.current d) → visitedAt g.grid (nbr g.current d) = true)
    (hg : g1.grid = g.grid) (hs : g1.stack = g.stack.dropLast)
    (hc : g1.current = (g.stack.dropLast.getLast?).getD g.current) : Inv W H g1 := by
  have hsplit : g.stack.dropLast ++ [g.current] = g.stack :=
    List.dropLast_append_getLast? _ (hi.top hst)
  constructor
  · rw [hg]; exact hi.shape
  · rw [hc]
    cases hl : g.stack.dropLast.getLast? with
    | none => exact hi.cur
    | some t =>
      exact (hi.onStack t (List.dropLast_subset _ (List.mem_of_getLast?_eq_some hl))).1
  · intro hne
    rw [hs] at hne ⊢
    rw [hc]
    cases hl : g.stack.dropLast.getLast? with
    | none => exact absurd (List.getLast?_eq_none_iff.mp hl) hne
    | some t => rfl
  · intro p hp
    rw [hs] at hp
    rw [hg]
    exact hi.onStack p (List.dropLast_subset _ hp)
  · rw [hg]; exact hi.origin
  · rw [hg]; exact hi.pairing
  · rw [hg]; exact hi.openVisited
  · rw [hg]; exact hi.reach
  · rw [hg, hs]
    intro p hp hns d hd
    by_cases hps : p ∈ g.stack
    · rw [← hsplit, List.mem_append, List.mem_singleton] at hps
      rcases hps with h | h
      · exact absurd h hns
      · subst h
        exact hall d hd
    · exact hi.finished p hp hps d hd
  · rw [hg]; exact hi.count

theorem Inv_carve {W H : Nat} {g g1 : Game} (hi : Inv W H g) (d : Fin 4) (hst : g.stack ≠ [])
    (hnb : inBounds W H (nbr g.current d)) (hnv : visitedAt g.grid (nbr g.current d) = false)
    (hsh : WellShaped W H g1.grid)
    (hv : ∀ p, visitedAt g1.grid p = if p = nbr g.current d then true else visitedAt g.grid p)
    (hw : ∀ p e, wallAt g1.grid p e =
      if (p = g.current ∧ e = d) ∨ (p = nbr g.current d ∧ e = opp d) then false
      else wallAt g.grid p e)
    (hs : g1.stack = g.stack ++ [nbr g.current d]) (hc : g1.current = nbr g.current d) :
    Inv W H g1 := by
  have hcv : visitedAt g.grid g.current = true := current_visited hi hst
  have hvmono : ∀ p, visitedAt g.grid p = true → visitedAt g1.grid p = true := by
    intro p hp
    rw [hv]
    split
    · rfl
    · exact hp
  have hwmono : ∀ p e, wallAt g.grid p e = false → wallAt g1.grid p e = false := by
    intro p e hp
    rw [hw]
    split
    · rfl
    · exact hp
  have hnew : visitedAt g1.grid (nbr g.current d) = true := by rw [hv, if_pos rfl]
  have hclosed1 : wallAt g.grid g.current d = true := by
    by_contra hx
    have hx2 : wallAt g.grid g.current d = false := by simpa using hx
    have := (hi.openVisited _ d hi.cur hnb hx2).2
    rw [hnv] at this
    cases this
  have hclosed2 : wallAt g.grid (nbr g.current d) (opp d) = true := by
    rw [← hi.pairing _ d hi.cur hnb]
    exact hclosed1
  constructor
  · exact hsh
  · rw [hc]; exact hnb
  · intro _
    rw [hs, hc, List.getLast?_concat]
  · intro p hp
    rw [hs, List.mem_append, List.mem_singleton] at hp
    rcases hp with h | h
    · exact ⟨(hi.onStack p h).1, hvmono p (hi.onStack p h).2⟩
    · subst h
      exact ⟨hnb, hnew⟩
  · exact hvmono _ hi.origin
  · intro p e hp hq
    rw [hw, hw, hi.pairing p e hp hq]
    have hiff : ((p = g.current ∧ e = d) ∨ (p = nbr g.current d ∧ e = opp d)) ↔
        ((nbr p e = g.current ∧ opp e = d) ∨
          (nbr p e = nbr g.current d ∧ opp e = opp d)) := by
      constructor
      · rintro (⟨h1, h2⟩ | ⟨h1, h2⟩)
        · subst h1 h2
          exact Or.inr ⟨rfl, rfl⟩
        · subst h1 h2
          exact Or.inl ⟨nbr_nbr_opp _ _, opp_opp _⟩
      · rintro (⟨h1, h2⟩ | ⟨h1, h2⟩)
        · right
          have he : e = opp d := by rw [← h2, opp_opp]
          subst he
          refine ⟨?_, rfl⟩
          rw [← h1]
          have := nbr_nbr_opp p (opp d)
          rw [opp_opp] at this
          exact this.symm
        · left
          have he : e = d := opp_injective h2
          subst he
          exact ⟨nbr_left_injective h1, rfl⟩
    by_cases c : (p = g.current ∧ e = d) ∨ (p = nbr g.current d ∧ e = opp d)
    · rw [if_pos c, if_pos (hiff.mp c)]
    · rw [if_neg c, if_neg (fun h => c (hiff.mpr h))]
  · intro p e hp hq hopen
    rw [hw] at hopen
    by_cases c : (p = g.current ∧ e = d) ∨ (p = nbr g.current d ∧ e = opp d)
    · rcases c with ⟨h1, h2⟩ | ⟨h1, h2⟩
      · subst h1 h2
        exact ⟨hvmono _ hcv, hnew⟩
      · subst h1 h2
        rw [nbr_nbr_opp]
        exact ⟨hnew, hvmono _ hcv⟩
    · rw [if_neg c] at hopen
      have := hi.openVisited p e hp hq hopen
      exact ⟨hvmono _ this.1, hvmono _ this.2⟩
  · intro p hp
    rw [hv] at hp
    by_cases hpn : p = nbr g.current d
    · subst hpn
      refine Relation.ReflTransGen.tail (connected_mono hwmono (hi.reach _ hcv)) ?_
      refine ⟨hi.cur, hnb, d, rfl, ?_⟩
      rw [hw, if_pos (Or.inl ⟨rfl, rfl⟩)]
    · rw [if_neg hpn] at hp
      exact connected_mono hwmono (hi.reach p hp)
  · intro p hp hns e he
    rw [hs, List.mem_append, List.mem_singleton, not_or] at hns
    rw [hv, if_neg hns.2] at hp
    exact hvmono _ (hi.finished p hp hns.1 e he)
  · rw [visitedCount_mark hnb hnv hv, openCount_carve hi.cur hnb hclosed1 hclosed2 hw,
      hi.count]

theorem Inv_of_StepCase {W H : Nat} {g g1 : Game} (hi : Inv W H g)
    (h : StepCase W H g g1) : Inv W H g1 := by
  cases h with
  | terminal _ he => rw [he]; exact hi
  | backtrack hst hall hg hs hc => exact Inv_backtrack hi hst hall hg hs hc
  | carve d hst hnb hnv hsh hv hw hs hc => exact Inv_carve hi d hst hnb hnv hsh hv hw hs hc

/-- From a state satisfying the invariant, `step` never fails, and the invariant holds again. -/
theorem step_total {W H : Nat} {g : Game} (hi : Inv W H g) (r : Nat) :
    ∃ g1, step W H g r = some g1 ∧ StepCase W H g g1 ∧ Inv W H g1 := by
  obtain ⟨g1, h1, h2⟩ := step_spec hi.shape hi.cur r
  exact ⟨g1, h1, h2, Inv_of_StepCase hi h2⟩

/-! ## Runs -/

theorem NewGame_pos {W H : Nat} {p : Game × Option String} (h : NewGame W H = some p) :
    0 < W ∧ 0 < H := by
  rcases Nat.eq_zero_or_pos H with hH | hH
  · subst hH
    simp [NewGame, blankGrid, markVisited, modifyCell] at h
  · rcases Nat.eq_zero_or_pos W with hW | hW
    · subst hW
      exfalso
      simp [NewGame, blankGrid, markVisited, modifyCell, List.getElem?_replicate, hH] at h
    · exact ⟨hW, hH⟩

theorem steps_append (W H : Nat) (g : Game) (rs1 rs2 : List Nat) :
    steps W H g (rs1 ++ rs2) = (steps W H g rs1).bind (fun g1 => steps W H g1 rs2) := by
  induction rs1 generalizing g with
  | nil => rfl
  | cons r rs ih =>
    simp only [List.cons_append, steps]
    cases step W H g r with
    | none => rfl
    | some g1 => exact ih g1

theorem steps_total {W H : Nat} {g : Game} (hi : Inv W H g) (rs : List Nat) :
    ∃ g1, steps W H g rs = some g1 ∧ Inv W H g1 := by
  induction rs generalizing g with
  | nil => exact ⟨g, rfl, hi⟩
  | cons r rs ih =>
    obtain ⟨g1, h1, _, hi1⟩ := step_total hi r
    obtain ⟨g2, h2, hi2⟩ := ih hi1
    exact ⟨g2, by simp only [steps, h1]; exact h2, hi2⟩

theorem steps_inv {W H : Nat} {g g1 : Game} (hi : Inv W H g) {rs : List Nat}
    (h : steps W H g rs = some g1) : Inv W H g1 := by
  obtain ⟨g2, h2, hi2⟩ := steps_total hi rs
  rw [h] at h2
  cases h2
  exact hi2

/-- For a non-empty grid every run succeeds and ends in a state satisfying the invariant. -/
theorem run_total {W H : Nat} (hW : 0 < W) (hH : 0 < H) (rs : List Nat) :
    ∃ g, run W H rs = some g ∧ Inv W H g := by
  obtain ⟨g0, h0, hi0⟩ := Inv_NewGame hW hH
  obtain ⟨g, h1, hi⟩ := steps_total hi0 rs
  exact ⟨g, by simp only [run, h0]; exact h1, hi⟩

theorem pos_of_Reachable {W H : Nat} {g : Game} (h : Reachable W H g) : 0 < W ∧ 0 < H := by
  obtain ⟨rs, hrs⟩ := h
  unfold run at hrs
  cases hn : NewGame W H with
  | none => rw [hn] at hrs; cases hrs
  | some p => exact NewGame_pos hn

theorem Inv_of_Reachable {W H : Nat} {g : Game} (h : Reachable W H g) : Inv W H g := by
  obtain ⟨hW, hH⟩ := pos_of_Reachable h
  obtain ⟨rs, hrs⟩ := h
  obtain ⟨g1, h1, hi⟩ := run_total hW hH rs
  rw [hrs] at h1
  cases h1
  exact hi

theorem run_snoc (W H : Nat) (rs : List Nat) (r : Nat) :
    run W H (rs ++ [r]) = (run W H rs).bind (fun g => step W H g r) := by
  unfold run
  cases NewGame W H with
  | none => rfl
  | some p =>
    simp only
    rw [steps_append]
    cases steps W H p.1 rs with
    | none => rfl
    | some g =>
      simp only [Option.some_bind, steps]
      cases step W H g r <;> rfl

theorem Reachable_step {W H : Nat} {g g1 : Game} (h : Reachable W H g) {r : Nat}
    (hs : step W H g r = some g1) : Reachable W H g1 := by
  obtain ⟨rs, hrs⟩ := h
  exact ⟨rs ++ [r], by rw [run_snoc, hrs]; exact hs⟩

/-! ## Consequences of the invariant -/

theorem all_visited_of_closed {W H : Nat} {grid : Grid}
    (h0 : visitedAt grid (0, 0) = true)
    (hcl : ∀ p, visitedAt grid p = true → ∀ d, inBounds W H (nbr p d) →
      visitedAt grid (nbr p d) = true)
    (p : Int × Int) (hp : inBounds W H p) : visitedAt grid p = true := by
  obtain ⟨hx0, hxW, hy0, hyH⟩ := hp
  have hrow : ∀ n : Nat, n < W → visitedAt grid ((n : Int), 0) = true := by
    intro n
    induction n with
    | zero => intro _; exact h0
    | succ n ih =>
      intro hn
      have hprev := ih (by omega)
      have he : nbr ((n : Int), (0 : Int)) 1 = (((n + 1 : Nat) : Int), 0) := by
        simp [nbr, delta]
      have hstep := hcl _ hprev 1 (by
        rw [he]
        refine ⟨?_, ?_, ?_, ?_⟩ <;> simp only <;> omega)
      rw [he] at hstep
      exact hstep
  have hcol : ∀ n m : Nat, n < W → m < H → visitedAt grid ((n : Int), (m : Int)) = true := by
    intro n m
    induction m with
    | zero => intro hn _; exact hrow n hn
    | succ m ih =>
      intro hn hm
      have hprev := ih hn (by omega)
      have he : nbr ((n : Int), (m : Int)) 2 = ((n : Int), ((m + 1 : Nat) : Int)) := by
        simp [nbr, delta]
      have hstep := hcl _ hprev 2 (by
        rw [he]
        refine ⟨?_, ?_, ?_, ?_⟩ <;> simp only <;> omega)
      rw [he] at hstep
      exact hstep
  have hxy := hcol p.1.toNat p.2.toNat (by omega) (by omega)
  rw [Int.toNat_of_nonneg hx0, Int.toNat_of_nonneg hy0] at hxy
  exact hxy

theorem all_visited_of_empty {W H : Nat} {g : Game} (hi : Inv W H g) (he : g.stack = [])
    (p : Int × Int) (hp : inBounds W H p) : visitedAt g.grid p = true := by
  refine all_visited_of_closed hi.origin ?_ p hp
  intro q hq d hd
  exact hi.finished q hq (by rw [he]; exact List.not_mem_nil q) d hd

theorem passage_symm {W H : Nat} {g : Game} (hi : Inv W H g) {a b : Int × Int}
    (h : passage W H g.grid a b) : passage W H g.grid b a := by
  obtain ⟨ha, hb, d, hd, hw⟩ := h
  subst hd
  refine ⟨hb, ha, opp d, (nbr_nbr_opp a d).symm, ?_⟩
  rw [← hi.pairing a d ha hb]
  exact hw

theorem connected_symm {W H : Nat} {g : Game} (hi : Inv W H g) {a b : Int × Int}
    (h : connected W H g.grid a b) : connected W H g.grid b a :=
  Relation.ReflTransGen.symmetric (fun _ _ => passage_symm hi) h

theorem visited_of_connected {W H : Nat} {g : Game} (hi : Inv W H g) {p : Int × Int}
    (h : connected W H g.grid (0, 0) p) : visitedAt g.grid p = true := by
  induction h with
  | refl => exact hi.origin
  | tail _ hab _ =>
    obtain ⟨ha, hb, d, hd, hw⟩ := hab
    subst hd
    exact (hi.openVisited _ d ha hb hw).2

theorem potential_step {W H : Nat} {g g1 : Game} (hst : g.stack ≠ [])
    (h : StepCase W H g g1) : potential W H g1 + 1 = potential W H g := by
  have hlen : 0 < g.stack.length := List.length_pos.mpr hst
  cases h with
  | terminal he _ => exact absurd he hst
  | backtrack _ _ hg hs _ =>
    unfold potential
    rw [hg, hs, List.length_dropLast]
    omega
  | carve d _ hnb hnv _ hv _ hs _ =>
    unfold potential
    have hc := visitedCount_mark hnb hnv hv
    have hle := visitedCount_le W H g1.grid
    rw [hs, List.length_append, List.length_singleton, hc]
    omega

theorem step_of_empty {W H : Nat} {g : Game} (he : g.stack = []) (r : Nat) :
    step W H g r = some g := by
  simp [step, he]

theorem run_potential {W H : Nat} (hW : 0 < W) (hH : 0 < H) (rs : List Nat) :
    ∃ g, run W H rs = some g ∧ Inv W H g ∧
      (g.stack = [] ∨ potential W H g + rs.length + 1 = 2 * W * H) := by
  induction rs using List.reverseRecOn with
  | nil =>
    obtain ⟨g, hg, hi⟩ := Inv_NewGame hW hH
    obtain ⟨g2, hg2, _, hv, _, hst, _, _⟩ := NewGame_spec hW hH
    rw [hg] at hg2
    cases hg2
    refine ⟨g, by simp only [run, hg, steps], hi, Or.inr ?_⟩
    have hc : visitedCount W H g.grid = 1 := by
      have := hi.count
      rw [openCount_eq_zero (by assumption)] at this
      exact this.symm
    have hpos : 1 ≤ W * H := Nat.mul_pos hW hH
    unfold potential
    rw [hc, hst]
    simp only [List.length_singleton, List.length_nil]
    have : 2 * W * H = 2 * (W * H) := Nat.mul_assoc 2 W H
    omega
  | append_singleton rs r ih =>
    obtain ⟨g, hg, hi, hp⟩ := ih
    rw [run_snoc, hg]
    simp only [Option.some_bind]
    by_cases he : g.stack = []
    · exact ⟨g, step_of_empty he r, hi, Or.inl he⟩
    · obtain ⟨g1, h1, hc, hi1⟩ := step_total hi r
      refine ⟨g1, h1, hi1, Or.inr ?_⟩
      have := potential_step he hc
      rcases hp with hp | hp
      · exact absurd hp he
      · rw [List.length_append, List.length_singleton]
        omega

/-! ## Properties of the generator -/

/-- C1. At termination the maze is perfect: in every state reachable from `NewGame()` by
`step()` whose stack is empty, any two cells of the `W × H` grid are connected by a path
through open walls, and the number of open boundaries between adjacent cells is exactly
`W * H - 1` (the open-wall graph is a spanning tree of the grid). -/
theorem perfect_maze_at_termination (W H : Nat) (g : Game) (hr : Reachable W H g)
    (he : g.stack = []) :
    (∀ a b, inBounds W H a → inBounds W H b → connected W H g.grid a b) ∧
      openCount W H g.grid = W * H - 1 := by
  have hi := Inv_of_Reachable hr
  have hall := all_visited_of_empty hi he
  constructor
  · intro a b ha hb
    exact Relation.ReflTransGen.trans (connected_symm hi (hi.reach a (hall a ha)))
      (hi.reach b (hall b hb))
  · have hc := hi.count
    rw [visitedCount_eq_of_all hall] at hc
    omega

theorem perfect_maze_at_termination_witness :
    ∃ g, run 2 2 [0, 0, 0, 0, 0, 0, 0] = some g ∧ g.stack = [] ∧
      (∀ a b, inBounds 2 2 a → inBounds 2 2 b → connected 2 2 g.grid a b) ∧
      openCount 2 2 g.grid = 2 * 2 - 1 :=
  ⟨_, rfl, rfl, perfect_maze_at_termination 2 2 _ ⟨[0, 0, 0, 0, 0, 0, 0], rfl⟩ rfl⟩

/-- C2. Termination bound: on a `W × H` grid, for every sequence `ρ` of random choices, the
stack is empty after some number `k ≤ 2 * W * H` of calls of `step()` from `NewGame()`. -/
theorem termination_bound (W H : Nat) (hW : 0 < W) (hH : 0 < H) (ρ : Nat → Nat) :
    ∃ k, k ≤ 2 * W * H ∧
      ∃ g, run W H ((List.range k).map ρ) = some g ∧ g.stack = [] := by
  refine ⟨2 * W * H, le_refl _, ?_⟩
  obtain ⟨g, hg, _, hp⟩ := run_potential hW hH ((List.range (2 * W * H)).map ρ)
  refine ⟨g, hg, ?_⟩
  rcases hp with hp | hp
  · exact hp
  · rw [List.length_map, List.length_range] at hp
    omega

theorem termination_bound_witness :
    0 < 2 ∧ 0 < 2 ∧ ∃ k, k ≤ 2 * 2 * 2 ∧
      ∃ g, run 2 2 ((List.range k).map (fun _ => 0)) = some g ∧ g.stack = [] :=
  ⟨by decide, by decide, termination_bound 2 2 (by decide) (by decide) (fun _ => 0)⟩

/-- C3. All cells are visited at termination: in every state reachable from `NewGame()` by
`step()` whose stack is empty, every cell `(x, y)` with `0 ≤ x < W` and `0 ≤ y < H` has
`visited == true`. -/
theorem all_cells_visited_at_termination (W H : Nat) (g : Game) (hr : Reachable W H g)
    (he : g.stack = []) (x y : Int) (hx0 : 0 ≤ x) (hxW : x < W) (hy0 : 0 ≤ y) (hyH : y < H) :
    ∃ c, cellAt g.grid x y = some c ∧ c.visited = true := by
  have hi := Inv_of_Reachable hr
  have hb : inBounds W H (x, y) := ⟨hx0, hxW, hy0, hyH⟩
  have hv := all_visited_of_empty hi he (x, y) hb
  obtain ⟨c, hc⟩ := cellAt_of_inBounds hi.shape hb
  refine ⟨c, hc, ?_⟩
  simp only at hc
  simpa [visitedAt, hc] using hv

theorem all_cells_visited_at_termination_witness :
    ∃ g, run 2 2 [0, 0, 0, 0, 0, 0, 0] = some g ∧ g.stack = [] ∧
      ∃ c, cellAt g.grid 1 1 = some c ∧ c.visited = true :=
  ⟨_, rfl, rfl, all_cells_visited_at_termination 2 2 _ ⟨[0, 0, 0, 0, 0, 0, 0], rfl⟩ rfl 1 1
    (by decide) (by decide) (by decide) (by decide)⟩

/-- C4. Wall pairing invariant: in every state reachable from `NewGame()` by `step()`, for
horizontally adjacent cells the East wall (1) of the left cell equals the West wall (3) of
the right cell, and for vertically adjacent cells the South wall (2) of the upper cell
equals the North wall (0) of the lower cell. -/
theorem wall_pairing (W H : Nat) (g : Game) (hr : Reachable W H g) (x y : Int)
    (hb : inBounds W H (x, y)) :
    (inBounds W H (x + 1, y) → wallAt g.grid (x, y) 1 = wallAt g.grid (x + 1, y) 3) ∧
      (inBounds W H (x, y + 1) → wallAt g.grid (x, y) 2 = wallAt g.grid (x, y + 1) 0) := by
  have hi := Inv_of_Reachable hr
  have hE : nbr (x, y) 1 = (x + 1, y) := by simp [nbr, delta]
  have hS : nbr (x, y) 2 = (x, y + 1) := by simp [nbr, delta]
  constructor
  · intro h
    have := hi.pairing (x, y) 1 hb (by rw [hE]; exact h)
    rw [hE] at this
    exact this
  · intro h
    have := hi.pairing (x, y) 2 hb (by rw [hS]; exact h)
    rw [hS] at this
    exact this

theorem wall_pairing_witness :
    ∃ g, run 2 2 [0, 0] = some g ∧ inBounds 2 2 (0, 0) ∧
      wallAt g.grid (0, 0) 1 = wallAt g.grid (0 + 1, 0) 3 ∧
      wallAt g.grid (0, 0) 2 = wallAt g.grid (0, 0 + 1) 0 :=
  ⟨_, rfl, by decide,
    (wall_pairing 2 2 _ ⟨[0, 0], rfl⟩ 0 0 (by decide)).1 (by decide),
    (wall_pairing 2 2 _ ⟨[0, 0], rfl⟩ 0 0 (by decide)).2 (by decide)⟩

/-- C5. Visited equals reachable: in every state reachable from `NewGame()` by `step()`, a
cell has `visited == true` if and only if it is connected to the start cell `(0, 0)` by a
path of grid-adjacent cells through open walls. -/
theorem visited_iff_connected (W H : Nat) (g : Game) (hr : Reachable W H g) (p : Int × Int) :
    visitedAt g.grid p = true ↔ connected W H g.grid (0, 0) p := by
  have hi := Inv_of_Reachable hr
  exact ⟨hi.reach p, visited_of_connected hi⟩

theorem visited_iff_connected_witness :
    ∃ g, run 2 2 [0, 0] = some g ∧
      (visitedAt g.grid (1, 1) = true ↔ connected 2 2 g.grid (0, 0) (1, 1)) :=
  ⟨_, rfl, visited_iff_connected 2 2 _ ⟨[0, 0], rfl⟩ (1, 1)⟩

/-- C6. Initial state: for `W, H ≥ 1`, `NewGame()` returns a generator and a nil error; the
grid has `H` rows of `W` cells, the only visited cell is `(0, 0)` (the visited count is 1),
every cell has all four walls `true`, the stack is `[(0, 0)]` and `current` is `(0, 0)`. -/
theorem NewGame_initial_state (W H : Nat) (hW : 0 < W) (hH : 0 < H) :
    ∃ g, NewGame W H = some (g, none) ∧
      WellShaped W H g.grid ∧
      (∀ p, inBounds W H p → (visitedAt g.grid p = true ↔ p = (0, 0))) ∧
      visitedCount W H g.grid = 1 ∧
      (∀ p d, inBounds W H p → wallAt g.grid p d = true) ∧
      g.stack = [(0, 0)] ∧ g.current = (0, 0) := by
  obtain ⟨g, hg, hi⟩ := Inv_NewGame hW hH
  obtain ⟨g2, hg2, hs, hv, hw, hst, hcur, _⟩ := NewGame_spec hW hH
  rw [hg] at hg2
  cases hg2
  refine ⟨g, hg, hs, ?_, ?_, fun p d _ => hw p d, hst, hcur⟩
  · intro p _
    rw [hv]
    simp
  · have := hi.count
    rw [openCount_eq_zero hw] at this
    exact this.symm

theorem NewGame_initial_state_witness :
    0 < GridWidth ∧ 0 < GridHeight ∧
    ∃ g, NewGame GridWidth GridHeight = some (g, none) ∧
      WellShaped GridWidth GridHeight g.grid ∧
      (∀ p, inBounds GridWidth GridHeight p → (visitedAt g.grid p = true ↔ p = (0, 0))) ∧
      visitedCount GridWidth GridHeight g.grid = 1 ∧
      (∀ p d, inBounds GridWidth GridHeight p → wallAt g.grid p d = true) ∧
      g.stack = [(0, 0)] ∧ g.current = (0, 0) :=
  ⟨by decide, by decide, NewGame_initial_state GridWidth GridHeight (by decide) (by decide)⟩

theorem carves_iff {W H : Nat} {g : Game} (hs : WellShaped W H g.grid) :
    carves W H g = true ↔
      g.stack ≠ [] ∧ ∃ d, inBounds W H (nbr g.current d) ∧
        visitedAt g.grid (nbr g.current d) = false := by
  unfold carves
  rw [getUnvisitedNeighbors_eq hs]
  simp only [Bool.and_eq_true, decide_eq_true_eq, gt_iff_lt, List.length_pos]
  refine and_congr Iff.rfl ?_
  constructor
  · intro hne
    obtain ⟨p, hp⟩ := List.exists_mem_of_ne_nil _ hne
    rw [mem_neighbors] at hp
    obtain ⟨⟨d, hd⟩, hb, hv⟩ := hp
    have hd2 : p = nbr g.current d := hd
    subst hd2
    exact ⟨d, hb, hv⟩
  · rintro ⟨d, hb, hv⟩
    apply List.ne_nil_of_mem (a := nbr g.current d)
    rw [mem_neighbors]
    exact ⟨⟨d, rfl⟩, hb, hv⟩

theorem StepCase_visited_mono {W H : Nat} {g g1 : Game} (h : StepCase W H g g1)
    {p : Int × Int} (hp : visitedAt g.grid p = true) : visitedAt g1.grid p = true := by
  cases h with
  | terminal _ he => rw [he]; exact hp
  | backtrack _ _ hg _ _ => rw [hg]; exact hp
  | carve d _ _ _ _ hv _ _ _ =>
    rw [hv]
    split
    · rfl
    · exact hp

theorem steps_visited_mono {W H : Nat} {g g1 : Game} (hi : Inv W H g) {rs : List Nat}
    (h : steps W H g rs = some g1) {p : Int × Int} (hp : visitedAt g.grid p = true) :
    visitedAt g1.grid p = true := by
  induction rs generalizing g with
  | nil =>
    simp only [steps, Option.some.injEq] at h
    rw [← h]
    exact hp
  | cons r rs ih =>
    obtain ⟨g2, h2, hc, hi2⟩ := step_total hi r
    simp only [steps, h2] at h
    exact ih hi2 h (StepCase_visited_mono hc hp)

/-- A step that appends `c` to the stack is a carving step into the unvisited cell `c`. -/
theorem StepCase_push {W H : Nat} {g g1 : Game} (h : StepCase W H g g1) {c : Int × Int}
    (hpush : g1.stack = g.stack ++ [c]) :
    visitedAt g.grid c = false ∧ visitedAt g1.grid c = true ∧
      ∃ d, c = nbr g.current d := by
  cases h with
  | terminal _ he =>
    rw [he] at hpush
    have := congrArg List.length hpush
    simp at this
  | backtrack _ _ _ hs _ =>
    rw [hs] at hpush
    have := congrArg List.length hpush
    rw [List.length_dropLast, List.length_append, List.length_singleton] at this
    omega
  | carve d _ _ hnv _ hv _ hs _ =>
    rw [hs] at hpush
    have hc : nbr g.current d = c := by simpa using hpush
    subst hc
    exact ⟨hnv, by rw [hv, if_pos rfl], d, rfl⟩

/-- C7. Monotonicity of the visited count: from every reachable state and for every random
choice, `step()` succeeds and does not decrease the number of visited cells; the number
grows by exactly 1 when the step carves, and is unchanged when it backtracks or is a
terminal no-op. -/
theorem visited_count_monotone (W H : Nat) (g : Game) (hr : Reachable W H g) (r : Nat) :
    ∃ g1, step W H g r = some g1 ∧
      visitedCount W H g.grid ≤ visitedCount W H g1.grid ∧
      (carves W H g = true → visitedCount W H g1.grid = visitedCount W H g.grid + 1) ∧
      (carves W H g = false → visitedCount W H g1.grid = visitedCount W H g.grid) := by
  have hi := Inv_of_Reachable hr
  obtain ⟨g1, h1, hc, _⟩ := step_total hi r
  refine ⟨g1, h1, ?_⟩
  cases hc with
  | terminal he hg =>
    have hn : ¬ carves W H g = true := by
      rw [carves_iff hi.shape]
      exact fun h => h.1 he
    rw [hg]
    exact ⟨le_refl _, fun h => absurd h hn, fun _ => rfl⟩
  | backtrack _ hall hg _ _ =>
    have hn : ¬ carves W H g = true := by
      rw [carves_iff hi.shape]
      rintro ⟨_, d, hb, hv⟩
      rw [hall d hb] at hv
      cases hv
    rw [hg]
    exact ⟨le_refl _, fun h => absurd h hn, fun _ => rfl⟩
  | carve d hst hnb hnv _ hv _ _ _ =>
    have hy : carves W H g = true := by
      rw [carves_iff hi.shape]
      exact ⟨hst, d, hnb, hnv⟩
    have hcount := visitedCount_mark hnb hnv hv
    refine ⟨by omega, fun _ => hcount, fun h => ?_⟩
    rw [hy] at h
    cases h

theorem visited_count_monotone_witness :
    ∃ g, run 2 2 [0, 0] = some g ∧
    ∃ g1, step 2 2 g 0 = some g1 ∧
      visitedCount 2 2 g.grid ≤ visitedCount 2 2 g1.grid ∧
      (carves 2 2 g = true → visitedCount 2 2 g1.grid = visitedCount 2 2 g.grid + 1) ∧
      (carves 2 2 g = false → visitedCount 2 2 g1.grid = visitedCount 2 2 g.grid) :=
  ⟨_, rfl, visited_count_monotone 2 2 _ ⟨[0, 0], rfl⟩ 0⟩

/-- C8. Terminal no-op: in every state whose stack is empty, `step()` returns without
error and leaves the whole state (grid, stack and `current`) unchanged. -/
theorem step_terminal_noop (W H : Nat) (g : Game) (r : Nat) (he : g.stack = []) :
    step W H g r = some g :=
  step_of_empty he r

theorem step_terminal_noop_witness :
    ∃ g, run 2 2 [0, 0, 0, 0, 0, 0, 0] = some g ∧ g.stack = [] ∧ step 2 2 g 5 = some g :=
  ⟨_, rfl, rfl, step_terminal_noop 2 2 _ 5 rfl⟩

/-- C9. No self-revisit: in every run from `NewGame()`, whenever `step()` carves into a cell
`c` (pushes `c` on the stack), `c` was unvisited immediately before the step and is visited
after it; hence `c` is not the start cell `(0, 0)`, is not already on the stack, and no
later step of the run pushes `c` again. -/
theorem no_self_revisit (W H : Nat) (g g1 : Game) (r : Nat) (c : Int × Int)
    (hr : Reachable W H g) (hs : step W H g r = some g1) (hpush : g1.stack = g.stack ++ [c]) :
    visitedAt g.grid c = false ∧ visitedAt g1.grid c = true ∧ c ≠ (0, 0) ∧ c ∉ g.stack ∧
      ∀ (rs : List Nat) (g2 : Game) (r2 : Nat) (g3 : Game),
        steps W H g1 rs = some g2 → step W H g2 r2 = some g3 → g3.stack ≠ g2.stack ++ [c] := by
  have hi := Inv_of_Reachable hr
  obtain ⟨g1t, h1, hc, hi1⟩ := step_total hi r
  rw [hs] at h1
  cases h1
  obtain ⟨hbefore, hafter, _⟩ := StepCase_push hc hpush
  refine ⟨hbefore, hafter, ?_, ?_, ?_⟩
  · intro h0
    rw [h0, hi.origin] at hbefore
    cases hbefore
  · intro hmem
    rw [(hi.onStack c hmem).2] at hbefore
    cases hbefore
  · intro rs g2 r2 g3 hsteps hstep2 hpush2
    have hi2 := steps_inv hi1 hsteps
    have hv2 := steps_visited_mono hi1 hsteps hafter
    obtain ⟨g3t, h3, hc3, _⟩ := step_total hi2 r2
    rw [hstep2] at h3
    cases h3
    have := (StepCase_push hc3 hpush2).1
    rw [hv2] at this
    cases this

theorem no_self_revisit_witness :
    ∃ g g1, run 2 2 [0] = some g ∧ step 2 2 g 0 = some g1 ∧
      g1.stack = g.stack ++ [(1, 1)] ∧
      visitedAt g.grid (1, 1) = false ∧ visitedAt g1.grid (1, 1) = true ∧
      ((1, 1) : Int × Int) ≠ (0, 0) ∧ ((1, 1) : Int × Int) ∉ g.stack ∧
      ∀ (rs : List Nat) (g2 : Game) (r2 : Nat) (g3 : Game),
        steps 2 2 g1 rs = some g2 → step 2 2 g2 r2 = some g3 →
          g3.stack ≠ g2.stack ++ [(1, 1)] :=
  ⟨_, _, rfl, rfl, rfl, no_self_revisit 2 2 _ _ 0 (1, 1) ⟨[0], rfl⟩ rfl rfl⟩

/-- C10. Concrete 2×2 scenario with a random source that always selects index 0: steps 1–3
carve to `(1,0)`, `(1,1)`, `(0,1)`; steps 4–6 backtrack, setting `current` to `(1,1)`,
`(1,0)`, `(0,0)`; step 7 empties the stack. In the final state all 4 cells are visited,
exactly 3 boundaries are open, and the North wall of `(0,0)` and the West walls of `(0,0)`
and `(0,1)` are still `true`. -/
theorem scenario_2x2 :
    trace2x2 0 = some ([(0, 0)], (0, 0)) ∧
    trace2x2 1 = some ([(0, 0), (1, 0)], (1, 0)) ∧
    trace2x2 2 = some ([(0, 0), (1, 0), (1, 1)], (1, 1)) ∧
    trace2x2 3 = some ([(0, 0), (1, 0), (1, 1), (0, 1)], (0, 1)) ∧
    trace2x2 4 = some ([(0, 0), (1, 0), (1, 1)], (1, 1)) ∧
    trace2x2 5 = some ([(0, 0), (1, 0)], (1, 0)) ∧
    trace2x2 6 = some ([(0, 0)], (0, 0)) ∧
    trace2x2 7 = some ([], (0, 0)) ∧
    (List.range 7).map (fun k => (run 2 2 (List.replicate k 0)).map (carves 2 2)) =
      [some true, some true, some true, some false, some false, some false, some false] ∧
    (List.range 8).map (fun k =>
        (run 2 2 (List.replicate k 0)).map (fun g => visitedCount 2 2 g.grid)) =
      [some 1, some 2, some 3, some 4, some 4, some 4, some 4, some 4] ∧
    ∃ g, run 2 2 (List.replicate 7 0) = some g ∧
      visitedAt g.grid (0, 0) = true ∧ visitedAt g.grid (1, 0) = true ∧
      visitedAt g.grid (0, 1) = true ∧ visitedAt g.grid (1, 1) = true ∧
      openCount 2 2 g.grid = 3 ∧
      openBoundaries 2 2 g.grid = {((0, 0), 1), ((1, 0), 2), ((0, 1), 1)} ∧
      wallAt g.grid (0, 0) 0 = true ∧ wallAt g.grid (0, 0) 3 = true ∧
      wallAt g.grid (0, 1) 3 = true := by
  refine ⟨by rfl, by rfl, by rfl, by rfl, by rfl, by rfl, by rfl, by rfl, by rfl, by decide,
    _, rfl, by rfl, by rfl, by rfl, by rfl, by decide, by decide, by rfl, by rfl, by rfl⟩

/-! ## Wall removal and neighbour enumeration -/

theorem nbr_of_adjacent {x1 y1 x2 y2 : Int}
    (hadj : (y1 = y2 ∧ (x1 - x2 = 1 ∨ x1 - x2 = -1)) ∨
      (x1 = x2 ∧ (y1 - y2 = 1 ∨ y1 - y2 = -1))) :
    ∃ d : Fin 4, (x2, y2) = nbr (x1, y1) d ∧
      (x1 - x2 = 1 → d = 3) ∧ (x1 - x2 = -1 → d = 1) ∧
      (y1 - y2 = 1 → d = 0) ∧ (y1 - y2 = -1 → d = 2) := by
  rcases hadj with ⟨hy, hx | hx⟩ | ⟨hx, hy | hy⟩
  · refine ⟨3, ?_, fun _ => rfl, fun h => ?_, fun h => ?_, fun h => ?_⟩
    · simp only [nbr, delta, Prod.mk.injEq]; omega
    all_goals omega
  · refine ⟨1, ?_, fun h => ?_, fun _ => rfl, fun h => ?_, fun h => ?_⟩
    · simp only [nbr, delta, Prod.mk.injEq]; omega
    all_goals omega
  · refine ⟨0, ?_, fun h => ?_, fun h => ?_, fun _ => rfl, fun h => ?_⟩
    · simp only [nbr, delta, Prod.mk.injEq]; omega
    all_goals omega
  · refine ⟨2, ?_, fun h => ?_, fun h => ?_, fun h => ?_, fun _ => rfl⟩
    · simp only [nbr, delta, Prod.mk.injEq]; omega
    all_goals omega

/-- C11. Wall-removal rule: on a `W × H` grid, for in-bounds cells `A = (x1, y1)` and
`B = (x2, y2)` that differ by exactly one unit in exactly one axis, `removeWall` succeeds
and sets wall `ka` of `A` and wall `kb` of `B` to `false`, where `(ka, kb)` is
(West 3, East 1) if `x1 - x2 == 1`, (East 1, West 3) if `x1 - x2 == -1`,
(North 0, South 2) if `y1 - y2 == 1`, (South 2, North 0) if `y1 - y2 == -1`; every other
wall entry and every visited flag is unchanged. -/
theorem removeWall_rule (W H : Nat) (grid : Grid) (hs : WellShaped W H grid)
    (x1 y1 x2 y2 : Int) (hA : inBounds W H (x1, y1)) (hB : inBounds W H (x2, y2))
    (hadj : (y1 = y2 ∧ (x1 - x2 = 1 ∨ x1 - x2 = -1)) ∨
      (x1 = x2 ∧ (y1 - y2 = 1 ∨ y1 - y2 = -1))) :
    ∃ grid1 ka kb, removeWall grid x1 y1 x2 y2 = some grid1 ∧
      (x1 - x2 = 1 → ka = 3 ∧ kb = 1) ∧ (x1 - x2 = -1 → ka = 1 ∧ kb = 3) ∧
      (y1 - y2 = 1 → ka = 0 ∧ kb = 2) ∧ (y1 - y2 = -1 → ka = 2 ∧ kb = 0) ∧
      wallAt grid1 (x1, y1) ka = false ∧ wallAt grid1 (x2, y2) kb = false ∧
      (∀ p e, ¬ (p = (x1, y1) ∧ e = ka) → ¬ (p = (x2, y2) ∧ e = kb) →
        wallAt grid1 p e = wallAt grid p e) ∧
      (∀ p, visitedAt grid1 p = visitedAt grid p) ∧
      WellShaped W H grid1 := by
  obtain ⟨d, hd, h3, h1, h0, h2⟩ := nbr_of_adjacent hadj
  have hB2 : inBounds W H (nbr (x1, y1) d) := by rw [← hd]; exact hB
  obtain ⟨grid1, e1, s1, v1, w1⟩ := removeWall_spec hs hA d hB2
  rw [← hd] at e1 w1
  refine ⟨grid1, d, opp d, e1, ?_, ?_, ?_, ?_, ?_, ?_, ?_, v1, s1⟩
  · intro h; rw [h3 h]; exact ⟨rfl, rfl⟩
  · intro h; rw [h1 h]; exact ⟨rfl, rfl⟩
  · intro h; rw [h0 h]; exact ⟨rfl, rfl⟩
  · intro h; rw [h2 h]; exact ⟨rfl, rfl⟩
  · rw [w1, if_pos (Or.inl ⟨rfl, rfl⟩)]
  · rw [w1, if_pos (Or.inr ⟨rfl, rfl⟩)]
  · intro p e hna hnb
    rw [w1, if_neg]
    rintro (h | h)
    · exact hna h
    · exact hnb h

theorem removeWall_rule_witness :
    ∃ g, run 2 2 [0] = some g ∧ WellShaped 2 2 g.grid ∧
      inBounds 2 2 (1, 0) ∧ inBounds 2 2 (1, 1) ∧
      ∃ grid1 ka kb, removeWall g.grid 1 0 1 1 = some grid1 ∧
        ((1 : Int) - 1 = 1 → ka = 3 ∧ kb = 1) ∧ ((1 : Int) - 1 = -1 → ka = 1 ∧ kb = 3) ∧
        ((0 : Int) - 1 = 1 → ka = 0 ∧ kb = 2) ∧ ((0 : Int) - 1 = -1 → ka = 2 ∧ kb = 0) ∧
        wallAt grid1 (1, 0) ka = false ∧ wallAt grid1 (1, 1) kb = false ∧
        (∀ p e, ¬ (p = (1, 0) ∧ e = ka) → ¬ (p = (1, 1) ∧ e = kb) →
          wallAt grid1 p e = wallAt g.grid p e) ∧
        (∀ p, visitedAt grid1 p = visitedAt g.grid p) ∧
        WellShaped 2 2 grid1 := by
  refine ⟨_, rfl, ⟨rfl, by decide⟩, by decide, by decide, ?_⟩
  refine removeWall_rule 2 2 _ ?_ 1 0 1 1 (by decide) (by decide) (by decide)
  exact ⟨rfl, by decide⟩

theorem candidates_eq (x y : Int) :
    candidates x y = [(x, y - 1), (x + 1, y), (x, y + 1), (x - 1, y)] := by
  simp [candidates, directions, sub_eq_add_neg]

/-- C12. Unvisited-neighbour enumeration: on a `W × H` grid and for in-bounds `(x, y)`,
`getUnvisitedNeighbors(x, y)` succeeds and returns the candidates `(x, y-1)`, `(x+1, y)`,
`(x, y+1)`, `(x-1, y)` (North, East, South, West, in this order) restricted to those
inside `[0, W) × [0, H)` whose cell has `visited == false`, without repetition. The
function only reads the grid: it returns the list and nothing else. -/
theorem getUnvisitedNeighbors_enumerates (W H : Nat) (grid : Grid)
    (hs : WellShaped W H grid) (x y : Int) (hb : inBounds W H (x, y)) :
    ∃ nb, getUnvisitedNeighbors W H grid x y = some nb ∧
      nb = [(x, y - 1), (x + 1, y), (x, y + 1), (x - 1, y)].filter
        (fun p => decide (inBounds W H p) && !visitedAt grid p) ∧
      nb.Nodup ∧
      (∀ p ∈ nb, ∃ c, cellAt grid p.1 p.2 = some c ∧ c.visited = false) ∧
      inBounds W H (x, y) := by
  refine ⟨_, getUnvisitedNeighbors_eq hs x y, by rw [candidates_eq], ?_, ?_, hb⟩
  · apply List.Nodup.filter
    rw [candidates_eq]
    simp only [List.nodup_cons, List.mem_cons, List.mem_singleton, Prod.mk.injEq,
      List.not_mem_nil, not_false_eq_true, List.nodup_nil, and_true, not_or]
    omega
  · intro p hp
    rw [mem_neighbors] at hp
    obtain ⟨_, hpb, hpv⟩ := hp
    obtain ⟨c, hc⟩ := cellAt_of_inBounds hs hpb
    refine ⟨c, hc, ?_⟩
    simpa [visitedAt, hc] using hpv

theorem getUnvisitedNeighbors_enumerates_witness :
    ∃ g, run 2 2 [0] = some g ∧ WellShaped 2 2 g.grid ∧ inBounds 2 2 (1, 0) ∧
      ∃ nb, getUnvisitedNeighbors 2 2 g.grid 1 0 = some nb ∧
        nb = [((1 : Int), (0 : Int) - 1), (1 + 1, 0), (1, 0 + 1), (1 - 1, 0)].filter
          (fun p => decide (inBounds 2 2 p) && !visitedAt g.grid p) ∧
        nb.Nodup ∧
        (∀ p ∈ nb, ∃ c, cellAt g.grid p.1 p.2 = some c ∧ c.visited = false) ∧
        inBounds 2 2 (1, 0) := by
  refine ⟨_, rfl, ⟨rfl, by decide⟩, by decide, ?_⟩
  refine getUnvisitedNeighbors_enumerates 2 2 _ ?_ 1 0 (by decide)
  exact ⟨rfl, by decide⟩

/-! ## Safety and the shape of a step -/

theorem step_carve_result {W H : Nat} {g : Game} (hs : WellShaped W H g.grid)
    (hc : inBounds W H g.current) (hst : g.stack ≠ []) {nb : List (Int × Int)}
    (hnb : getUnvisitedNeighbors W H g.grid g.current.1 g.current.2 = some nb)
    {r : Nat} {next : Int × Int} (hsel : nb[r % nb.length]? = some next) :
    ∃ g1 grid1, step W H g r = some g1 ∧
      removeWall g.grid g.current.1 g.current.2 next.1 next.2 = some grid1 ∧
      markVisited grid1 next.1 next.2 = some g1.grid ∧
      g1.stack = g.stack ++ [next] ∧ g1.current = next ∧ g1.frame = g.frame := by
  have hmem : next ∈ nb := List.getElem?_mem hsel
  have hpos : nb.length > 0 := List.length_pos_of_mem hmem
  have hnb2 := hnb
  rw [getUnvisitedNeighbors_eq hs, Option.some.injEq] at hnb2
  rw [← hnb2, mem_neighbors] at hmem
  obtain ⟨⟨d, hd⟩, hb, _⟩ := hmem
  have hd2 : next = nbr g.current d := hd
  subst hd2
  obtain ⟨grid1, e1, s1, _, _⟩ := removeWall_spec hs hc d hb
  obtain ⟨grid2, e2, _, _, _⟩ := markVisited_spec s1 hb
  have hstep : step W H g r = some
      { g with grid := grid2, stack := g.stack ++ [nbr g.current d], current := nbr g.current d } := by
    unfold step
    rw [if_pos (List.length_pos.mpr hst)]
    simp only
    rw [hnb]
    simp only
    rw [if_pos hpos, hsel]
    simp only
    rw [e1]
    simp only
    rw [e2]
  exact ⟨_, grid1, hstep, e1, e2, rfl, rfl, rfl⟩

/-- C13. No out-of-range access: in every state reachable from `NewGame()` by `step()`,
`current` and every stack coordinate lie in `[0, W) × [0, H)`; `getUnvisitedNeighbors`
succeeds and returns in-bounds cells; the index chosen in the neighbour list is in range;
`removeWall` and the `visited` assignment succeed for every neighbour that can be chosen;
and `step` itself succeeds (the failure branch of the embedding is not taken). -/
theorem no_out_of_range_access (W H : Nat) (g : Game) (hr : Reachable W H g) (r : Nat) :
    inBounds W H g.current ∧ (∀ p ∈ g.stack, inBounds W H p) ∧
      (∃ nb, getUnvisitedNeighbors W H g.grid g.current.1 g.current.2 = some nb ∧
        (∀ p ∈ nb, inBounds W H p) ∧
        (nb ≠ [] → ∃ next, nb[r % nb.length]? = some next) ∧
        ∀ next ∈ nb, ∃ grid1 grid2,
          removeWall g.grid g.current.1 g.current.2 next.1 next.2 = some grid1 ∧
          markVisited grid1 next.1 next.2 = some grid2) ∧
      ∃ g1, step W H g r = some g1 := by
  have hi := Inv_of_Reachable hr
  obtain ⟨g1, h1, _, _⟩ := step_total hi r
  refine ⟨hi.cur, fun p hp => (hi.onStack p hp).1, ?_, g1, h1⟩
  refine ⟨_, getUnvisitedNeighbors_eq hi.shape _ _, ?_, ?_, ?_⟩
  · intro p hp
    rw [mem_neighbors] at hp
    exact hp.2.1
  · intro hne
    have hlt := Nat.mod_lt r (List.length_pos.mpr hne)
    exact ⟨_, List.getElem?_eq_getElem hlt⟩
  · intro next hmem
    rw [mem_neighbors] at hmem
    obtain ⟨⟨d, hd⟩, hb, _⟩ := hmem
    have hd2 : next = nbr g.current d := hd
    subst hd2
    obtain ⟨grid1, e1, s1, _, _⟩ := removeWall_spec hi.shape hi.cur d hb
    obtain ⟨grid2, e2, _, _, _⟩ := markVisited_spec s1 hb
    exact ⟨grid1, grid2, e1, e2⟩

theorem no_out_of_range_access_witness :
    ∃ g, run 2 2 [0, 0] = some g ∧
      inBounds 2 2 g.current ∧ (∀ p ∈ g.stack, inBounds 2 2 p) ∧
      (∃ nb, getUnvisitedNeighbors 2 2 g.grid g.current.1 g.current.2 = some nb ∧
        (∀ p ∈ nb, inBounds 2 2 p) ∧
        (nb ≠ [] → ∃ next, nb[3 % nb.length]? = some next) ∧
        ∀ next ∈ nb, ∃ grid1 grid2,
          removeWall g.grid g.current.1 g.current.2 next.1 next.2 = some grid1 ∧
          markVisited grid1 next.1 next.2 = some grid2) ∧
      ∃ g1, step 2 2 g 3 = some g1 :=
  ⟨_, rfl, no_out_of_range_access 2 2 _ ⟨[0, 0], rfl⟩ 3⟩

theorem step_eq_specStep_of_top {W H : Nat} {g : Game}
    (htop : g.stack ≠ [] → g.stack.getLast? = some g.current) (r : Nat) :
    step W H g r = specStep W H g r := by
  by_cases hst : g.stack = []
  · rw [step_of_empty hst]
    simp [specStep, hst]
  · unfold step specStep
    rw [if_pos (List.length_pos.mpr hst), htop hst]
    simp only
    cases getUnvisitedNeighbors W H g.grid g.current.1 g.current.2 with
    | none => rfl
    | some nb =>
      simp only
      by_cases hlen : nb.length > 0
      · rw [if_pos hlen, if_pos hlen]
      · rw [if_neg hlen, if_neg hlen]
        by_cases hd : g.stack.dropLast = []
        · have hl0 : ¬ (g.stack.dropLast.length > 0) := by rw [hd]; simp
          rw [if_neg hl0, hd]
          rfl
        · have hl0 : g.stack.dropLast.length > 0 := List.length_pos.mpr hd
          rw [if_pos hl0, ← List.getLast?_eq_getElem?]
          cases hl : g.stack.dropLast.getLast? with
          | none => exact absurd (List.getLast?_eq_none_iff.mp hl) hd
          | some t => rfl

/-- C14. Current mirrors the stack top: in every state reachable from `NewGame()` by
`step()` whose stack is non-empty, `current` is the last element of the stack;
consequently `step()`, which reads the active cell from `current`, returns the same
result as the specified step `specStep`, which reads the top of the stack. -/
theorem current_mirrors_stack_top (W H : Nat) (g : Game) (hr : Reachable W H g) :
    (g.stack ≠ [] → g.stack.getLast? = some g.current) ∧
      ∀ r, step W H g r = specStep W H g r := by
  have hi := Inv_of_Reachable hr
  exact ⟨hi.top, step_eq_specStep_of_top hi.top⟩

theorem current_mirrors_stack_top_witness :
    ∃ g, run 2 2 [0, 0, 0, 0] = some g ∧
      (g.stack ≠ [] → g.stack.getLast? = some g.current) ∧
      ∀ r, step 2 2 g r = specStep 2 2 g r :=
  ⟨_, rfl, current_mirrors_stack_top 2 2 _ ⟨[0, 0, 0, 0], rfl⟩⟩

/-- C15. Carve step postcondition: in a reachable state with a non-empty stack, if
`getUnvisitedNeighbors` of the current cell returns `nb` and the random index selects
`next = nb[r % len(nb)]`, then `step()` succeeds; in the new state the wall of the old
current cell facing `next` and the wall of `next` facing back are both `false`, `next` is
visited, the stack is the old stack with `next` appended, `current == next`, and every
other wall entry and visited flag is unchanged. Every element of `nb` is selected by some
`r`. -/
theorem carve_postcondition (W H : Nat) (g : Game) (hr : Reachable W H g)
    (hst : g.stack ≠ []) (nb : List (Int × Int))
    (hnb : getUnvisitedNeighbors W H g.grid g.current.1 g.current.2 = some nb)
    (r : Nat) (next : Int × Int) (hsel : nb[r % nb.length]? = some next) :
    (∀ c ∈ nb, ∃ i, nb[i % nb.length]? = some c) ∧
    ∃ g1 d, step W H g r = some g1 ∧ next = nbr g.current d ∧
      wallAt g1.grid g.current d = false ∧ wallAt g1.grid next (opp d) = false ∧
      visitedAt g1.grid next = true ∧
      g1.stack = g.stack ++ [next] ∧ g1.stack.length = g.stack.length + 1 ∧
      g1.current = next ∧
      (∀ p e, ¬ (p = g.current ∧ e = d) → ¬ (p = next ∧ e = opp d) →
        wallAt g1.grid p e = wallAt g.grid p e) ∧
      (∀ p, p ≠ next → visitedAt g1.grid p = visitedAt g.grid p) := by
  have hi := Inv_of_Reachable hr
  constructor
  · intro c hc
    obtain ⟨i, hlt, hget⟩ := List.getElem_of_mem hc
    exact ⟨i, by rw [Nat.mod_eq_of_lt hlt, List.getElem?_eq_getElem hlt, hget]⟩
  · obtain ⟨g1, _, h1, _, _, hs1, hc1, _⟩ := step_carve_result hi.shape hi.cur hst hnb hsel
    obtain ⟨g2, h2, hcase, _⟩ := step_total hi r
    rw [h1] at h2
    cases h2
    cases hcase with
    | terminal he _ => exact absurd he hst
    | backtrack _ _ _ hs _ =>
      rw [hs] at hs1
      have := congrArg List.length hs1
      rw [List.length_dropLast, List.length_append, List.length_singleton] at this
      omega
    | carve d _ hb hnv _ hv hw hs hc =>
      have hnext : next = nbr g.current d := by rw [← hc1, hc]
      subst hnext
      refine ⟨g1, d, h1, rfl, ?_, ?_, ?_, hs, ?_, hc, ?_, ?_⟩
      · rw [hw, if_pos (Or.inl ⟨rfl, rfl⟩)]
      · rw [hw, if_pos (Or.inr ⟨rfl, rfl⟩)]
      · rw [hv, if_pos rfl]
      · rw [hs, List.length_append, List.length_singleton]
      · intro p e hna hnb2
        rw [hw, if_neg]
        rintro (h | h)
        · exact hna h
        · exact hnb2 h
      · intro p hp
        rw [hv, if_neg hp]

theorem carve_postcondition_witness :
    ∃ g, run 2 2 [] = some g ∧ g.stack ≠ [] ∧
      getUnvisitedNeighbors 2 2 g.grid g.current.1 g.current.2 = some [(1, 0), (0, 1)] ∧
      [((1 : Int), (0 : Int)), (0, 1)][1 % [((1 : Int), (0 : Int)), (0, 1)].length]? =
        some (0, 1) ∧
      (∀ c ∈ [((1 : Int), (0 : Int)), (0, 1)],
        ∃ i, [((1 : Int), (0 : Int)), (0, 1)][i % [((1 : Int), (0 : Int)), (0, 1)].length]? =
          some c) ∧
      ∃ g1 d, step 2 2 g 1 = some g1 ∧ (0, 1) = nbr g.current d ∧
        wallAt g1.grid g.current d = false ∧ wallAt g1.grid (0, 1) (opp d) = false ∧
        visitedAt g1.grid (0, 1) = true ∧
        g1.stack = g.stack ++ [(0, 1)] ∧ g1.stack.length = g.stack.length + 1 ∧
        g1.current = (0, 1) ∧
        (∀ p e, ¬ (p = g.current ∧ e = d) → ¬ (p = (0, 1) ∧ e = opp d) →
          wallAt g1.grid p e = wallAt g.grid p e) ∧
        (∀ p, p ≠ (0, 1) → visitedAt g1.grid p = visitedAt g.grid p) := by
  refine ⟨_, rfl, by decide, rfl, rfl, ?_⟩
  exact carve_postcondition 2 2 _ ⟨[], rfl⟩ (by decide) [(1, 0), (0, 1)] rfl 1 (0, 1) rfl

/-- C16. Backtrack step postcondition: in every state with a non-empty stack whose current
cell has no unvisited neighbour (`getUnvisitedNeighbors` returns the empty list), `step()`
succeeds, removes exactly the last stack element, leaves the grid unchanged, sets
`current` to the new last stack element if the stack is still non-empty, and leaves
`current` unchanged if the pop emptied the stack. -/
theorem backtrack_postcondition (W H : Nat) (g : Game) (r : Nat) (hst : g.stack ≠ [])
    (hnb : getUnvisitedNeighbors W H g.grid g.current.1 g.current.2 = some []) :
    ∃ g1, step W H g r = some g1 ∧ g1.grid = g.grid ∧
      g1.stack = g.stack.dropLast ∧ (∃ last, g.stack = g1.stack ++ [last]) ∧
      (g1.stack ≠ [] → g1.stack.getLast? = some g1.current) ∧
      (g1.stack = [] → g1.current = g.current) ∧ g1.frame = g.frame := by
  have hsplit : ∃ last, g.stack = g.stack.dropLast ++ [last] :=
    ⟨g.stack.getLast hst, (List.dropLast_append_getLast hst).symm⟩
  unfold step
  rw [if_pos (List.length_pos.mpr hst)]
  simp only
  rw [hnb]
  simp only [List.length_nil, gt_iff_lt, lt_self_iff_false, ↓reduceIte]
  by_cases hd : g.stack.dropLast = []
  · have hl0 : ¬ (0 < g.stack.dropLast.length) := by rw [hd]; simp
    rw [if_neg hl0]
    exact ⟨_, rfl, rfl, rfl, hsplit, fun h => absurd hd h, fun _ => rfl, rfl⟩
  · have hl0 : 0 < g.stack.dropLast.length := List.length_pos.mpr hd
    rw [if_pos hl0, ← List.getLast?_eq_getElem?]
    cases hl : g.stack.dropLast.getLast? with
    | none => exact absurd (List.getLast?_eq_none_iff.mp hl) hd
    | some t =>
      exact ⟨_, rfl, rfl, rfl, hsplit, fun _ => hl, fun h => absurd h hd, rfl⟩

theorem backtrack_postcondition_witness :
    ∃ g, run 2 2 [0, 0, 0] = some g ∧ g.stack ≠ [] ∧
      getUnvisitedNeighbors 2 2 g.grid g.current.1 g.current.2 = some [] ∧
      ∃ g1, step 2 2 g 0 = some g1 ∧ g1.grid = g.grid ∧
        g1.stack = g.stack.dropLast ∧ (∃ last, g.stack = g1.stack ++ [last]) ∧
        (g1.stack ≠ [] → g1.stack.getLast? = some g1.current) ∧
        (g1.stack = [] → g1.current = g.current) ∧ g1.frame = g.frame := by
  refine ⟨_, rfl, by decide, rfl, ?_⟩
  exact backtrack_postcondition 2 2 _ 0 (by decide) rfl

/-! ## The stack as a path, and the outer walls -/

theorem PathInv_NewGame {W H : Nat} (hW : 0 < W) (hH : 0 < H) :
    ∃ g, NewGame W H = some (g, none) ∧ PathInv W H g := by
  obtain ⟨g, hg, _, _, hw, hst, _, _⟩ := NewGame_spec hW hH
  refine ⟨g, hg, ?_⟩
  constructor
  · intro _; rw [hst]; rfl
  · rw [hst]; exact List.nodup_singleton _
  · rw [hst]; exact List.chain'_singleton _
  · intro p d _ _; exact hw p d

theorem PathInv_of_StepCase {W H : Nat} {g g1 : Game} (hi : Inv W H g) (hp : PathInv W H g)
    (h : StepCase W H g g1) : PathInv W H g1 := by
  cases h with
  | terminal _ he => rw [he]; exact hp
  | backtrack hst _ hg hs _ =>
    constructor
    · intro hne
      rw [hs] at hne ⊢
      have hlen : 0 < g.stack.dropLast.length := List.length_pos.mpr hne
      rw [List.length_dropLast] at hlen
      rw [List.head?_dropLast, if_pos (by omega)]
      exact hp.first hst
    · rw [hs]; exact hp.nodup.sublist (List.dropLast_sublist _)
    · rw [hs, hg]; exact hp.chain.prefix (List.dropLast_prefix _)
    · rw [hg]; exact hp.outer
  | carve d hst hnb hnv _ hv hw hs hc =>
    have hwmono : ∀ p e, wallAt g.grid p e = false → wallAt g1.grid p e = false := by
      intro p e hpe
      rw [hw]
      split
      · rfl
      · exact hpe
    constructor
    · intro _
      rw [hs, List.head?_append_of_ne_nil _ hst]
      exact hp.first hst
    · rw [hs, ← List.concat_eq_append]
      refine List.Nodup.concat ?_ hp.nodup
      intro hmem
      rw [(hi.onStack _ hmem).2] at hnv
      cases hnv
    · rw [hs]
      refine List.Chain'.append ?_ (List.chain'_singleton _) ?_
      · refine hp.chain.imp ?_
        rintro a b ⟨e, he, h1, h2⟩
        exact ⟨e, he, hwmono _ _ h1, hwmono _ _ h2⟩
      · intro x hx y hy
        rw [hi.top hst] at hx
        simp only [Option.mem_def, Option.some.injEq] at hx
        simp only [List.head?_cons, Option.mem_def, Option.some.injEq] at hy
        subst hx hy
        refine ⟨d, rfl, ?_, ?_⟩
        · rw [hw, if_pos (Or.inl ⟨rfl, rfl⟩)]
        · rw [hw, if_pos (Or.inr ⟨rfl, rfl⟩)]
    · intro p e hpb hout
      rw [hw, if_neg]
      · exact hp.outer p e hpb hout
      · rintro (⟨h1, h2⟩ | ⟨h1, h2⟩)
        · subst h1 h2
          exact hout hnb
        · subst h1 h2
          rw [nbr_nbr_opp] at hout
          exact hout hi.cur

theorem steps_pathInv {W H : Nat} {g g1 : Game} (hi : Inv W H g) (hp : PathInv W H g)
    {rs : List Nat} (h : steps W H g rs = some g1) : PathInv W H g1 := by
  induction rs generalizing g with
  | nil =>
    simp only [steps, Option.some.injEq] at h
    rw [← h]
    exact hp
  | cons r rs ih =>
    obtain ⟨g2, h2, hc, hi2⟩ := step_total hi r
    simp only [steps, h2] at h
    exact ih hi2 (PathInv_of_StepCase hi hp hc) h

theorem PathInv_of_Reachable {W H : Nat} {g : Game} (h : Reachable W H g) :
    PathInv W H g := by
  obtain ⟨hW, hH⟩ := pos_of_Reachable h
  obtain ⟨rs, hrs⟩ := h
  obtain ⟨g0, h0, hi0⟩ := Inv_NewGame hW hH
  obtain ⟨g0b, h0b, hp0⟩ := PathInv_NewGame hW hH
  rw [h0] at h0b
  cases h0b
  simp only [run, h0] at hrs
  exact steps_pathInv hi0 hp0 hrs

/-- C17. The stack is the DFS path: in every state reachable from `NewGame()` by `step()`
with a non-empty stack, the first stack element is `(0, 0)`, the stack elements are
pairwise distinct, each is an in-bounds visited cell, and every two consecutive elements
are grid neighbours whose facing walls are both open. -/
theorem stack_is_dfs_path (W H : Nat) (g : Game) (hr : Reachable W H g)
    (hst : g.stack ≠ []) :
    g.stack.head? = some (0, 0) ∧ g.stack.Nodup ∧
      (∀ p ∈ g.stack, inBounds W H p ∧ visitedAt g.grid p = true) ∧
      g.stack.Chain' (openStep g.grid) := by
  have hi := Inv_of_Reachable hr
  have hp := PathInv_of_Reachable hr
  exact ⟨hp.first hst, hp.nodup, hi.onStack, hp.chain⟩

theorem stack_is_dfs_path_witness :
    ∃ g, run 2 2 [0, 0, 0] = some g ∧ g.stack ≠ [] ∧
      g.stack.head? = some (0, 0) ∧ g.stack.Nodup ∧
      (∀ p ∈ g.stack, inBounds 2 2 p ∧ visitedAt g.grid p = true) ∧
      g.stack.Chain' (openStep g.grid) := by
  refine ⟨_, rfl, by decide, ?_⟩
  exact stack_is_dfs_path 2 2 _ ⟨[0, 0, 0], rfl⟩ (by decide)

/-! ## Exact run length -/

theorem backtracks_iff {W H : Nat} {g : Game} (hs : WellShaped W H g.grid) :
    backtracks W H g = true ↔ g.stack ≠ [] ∧ carves W H g = false := by
  unfold backtracks carves
  rw [getUnvisitedNeighbors_eq hs]
  by_cases hst : g.stack = []
  · simp [hst]
  · have hlen : 0 < g.stack.length := List.length_pos.mpr hst
    simp [hst, hlen]

theorem potential_eq_zero_of_empty {W H : Nat} {g : Game} (hi : Inv W H g)
    (he : g.stack = []) : potential W H g = 0 := by
  unfold potential
  rw [visitedCount_eq_of_all (all_visited_of_empty hi he), he]
  simp

theorem run_exact {W H : Nat} (hW : 0 < W) (hH : 0 < H) (rs : List Nat)
    (hlen : rs.length + 1 ≤ 2 * W * H) :
    ∃ g, run W H rs = some g ∧ Inv W H g ∧ potential W H g + rs.length + 1 = 2 * W * H := by
  induction rs using List.reverseRecOn with
  | nil =>
    obtain ⟨g, hg, hi, hp⟩ := run_potential hW hH []
    refine ⟨g, hg, hi, ?_⟩
    rcases hp with hp | hp
    · have h0 := potential_eq_zero_of_empty hi hp
      obtain ⟨g2, hg2, _, _, _, hst, _, _⟩ := NewGame_spec hW hH
      simp only [run, hg2, steps, Option.some.injEq] at hg
      rw [← hg, hst] at hp
      cases hp
    · exact hp
  | append_singleton rs r ih =>
    rw [List.length_append, List.length_singleton] at hlen ⊢
    obtain ⟨g, hg, hi, hp⟩ := ih (by omega)
    rw [run_snoc, hg]
    simp only [Option.some_bind]
    have hst : g.stack ≠ [] := by
      intro he
      have := potential_eq_zero_of_empty hi he
      omega
    obtain ⟨g1, h1, hc, hi1⟩ := step_total hi r
    refine ⟨g1, h1, hi1, ?_⟩
    have := potential_step hst hc
    omega

theorem countSteps_relations {W H : Nat} {g g1 : Game} (hi : Inv W H g) {rs : List Nat}
    (h : steps W H g rs = some g1) :
    visitedCount W H g1.grid = visitedCount W H g.grid + countSteps W H (carves W H) g rs ∧
      g1.stack.length + countSteps W H (backtracks W H) g rs =
        g.stack.length + countSteps W H (carves W H) g rs := by
  induction rs generalizing g with
  | nil =>
    simp only [steps, Option.some.injEq] at h
    rw [← h]
    simp [countSteps]
  | cons r rs ih =>
    obtain ⟨g2, h2, hc, hi2⟩ := step_total hi r
    simp only [steps, h2] at h
    obtain ⟨ih1, ih2⟩ := ih hi2 h
    simp only [countSteps, h2]
    have hbt := backtracks_iff (g := g) hi.shape
    cases hc with
    | terminal he hg =>
      have hn : carves W H g = false := by
        cases hcv : carves W H g with
        | false => rfl
        | true => exact absurd he ((carves_iff hi.shape).mp hcv).1
      have hb : backtracks W H g = false := by
        cases hbv : backtracks W H g with
        | false => rfl
        | true => exact absurd he (hbt.mp hbv).1
      rw [hg] at ih1 ih2 ⊢
      rw [hn, hb]
      simp only [Bool.false_eq_true, ↓reduceIte]
      omega
    | backtrack hst hall hg hs _ =>
      have hn : carves W H g = false := by
        cases hcv : carves W H g with
        | false => rfl
        | true =>
          obtain ⟨_, d, hb, hv⟩ := (carves_iff hi.shape).mp hcv
          rw [hall d hb] at hv
          cases hv
      have hb : backtracks W H g = true := hbt.mpr ⟨hst, hn⟩
      have hlen : 0 < g.stack.length := List.length_pos.mpr hst
      rw [hg] at ih1
      rw [hs, List.length_dropLast] at ih2
      rw [hn, hb]
      simp only [Bool.false_eq_true, ↓reduceIte]
      omega
    | carve d hst hnb hnv _ hv _ hs _ =>
      have hy : carves W H g = true := (carves_iff hi.shape).mpr ⟨hst, d, hnb, hnv⟩
      have hb : backtracks W H g = false := by
        cases hbv : backtracks W H g with
        | false => rfl
        | true =>
          have := (hbt.mp hbv).2
          rw [hy] at this
          cases this
      have hcount := visitedCount_mark hnb hnv hv
      rw [hs, List.length_append, List.length_singleton] at ih2
      rw [hy, hb]
      simp only [Bool.false_eq_true, ↓reduceIte]
      omega

/-- C18. Exact run length: on a `W × H` grid and for every sequence `ρ` of random choices,
the stack is non-empty after every `k < 2 * W * H - 1` calls of `step()` from `NewGame()`
and empty after exactly `2 * W * H - 1` calls; of these calls `W * H - 1` carve and
`W * H` backtrack. For the compiled 20 × 20 grid the number of calls is 799. -/
theorem exact_run_length (W H : Nat) (hW : 0 < W) (hH : 0 < H) (ρ : Nat → Nat) :
    (∀ k, k < 2 * W * H - 1 →
      ∃ g, run W H ((List.range k).map ρ) = some g ∧ g.stack ≠ []) ∧
    (∃ g, run W H ((List.range (2 * W * H - 1)).map ρ) = some g ∧ g.stack = []) ∧
    (∃ g0, NewGame W H = some (g0, none) ∧
      countSteps W H (carves W H) g0 ((List.range (2 * W * H - 1)).map ρ) = W * H - 1 ∧
      countSteps W H (backtracks W H) g0 ((List.range (2 * W * H - 1)).map ρ) = W * H) ∧
    2 * GridWidth * GridHeight - 1 = 799 := by
  have hpos : 1 ≤ W * H := Nat.mul_pos hW hH
  have hmul : 2 * W * H = 2 * (W * H) := Nat.mul_assoc 2 W H
  have hfinal : ∃ g, run W H ((List.range (2 * W * H - 1)).map ρ) = some g ∧ Inv W H g ∧
      g.stack = [] := by
    obtain ⟨g, hg, hi, hp⟩ := run_exact hW hH ((List.range (2 * W * H - 1)).map ρ)
      (by rw [List.length_map, List.length_range]; omega)
    refine ⟨g, hg, hi, ?_⟩
    rw [List.length_map, List.length_range] at hp
    have h0 : potential W H g = 0 := by omega
    unfold potential at h0
    exact List.length_eq_zero.mp (by omega)
  refine ⟨?_, ?_, ?_, by decide⟩
  · intro k hk
    obtain ⟨g, hg, hi, hp⟩ := run_exact hW hH ((List.range k).map ρ)
      (by rw [List.length_map, List.length_range]; omega)
    refine ⟨g, hg, ?_⟩
    intro he
    have := potential_eq_zero_of_empty hi he
    rw [List.length_map, List.length_range] at hp
    omega
  · obtain ⟨g, hg, _, he⟩ := hfinal
    exact ⟨g, hg, he⟩
  · obtain ⟨g, hg, hi, he⟩ := hfinal
    obtain ⟨g0, h0, hi0⟩ := Inv_NewGame hW hH
    obtain ⟨g0b, h0b, _, _, hw, hst0, _, _⟩ := NewGame_spec hW hH
    rw [h0] at h0b
    cases h0b
    simp only [run, h0] at hg
    obtain ⟨hv, hl⟩ := countSteps_relations hi0 hg
    have hc0 : visitedCount W H g0.grid = 1 := by
      have := hi0.count
      rw [openCount_eq_zero hw] at this
      exact this.symm
    rw [visitedCount_eq_of_all (all_visited_of_empty hi he), hc0] at hv
    rw [he, hst0] at hl
    simp only [List.length_nil, List.length_singleton] at hl
    exact ⟨g0, h0, by omega, by omega⟩

theorem exact_run_length_witness :
    0 < GridWidth ∧ 0 < GridHeight ∧
    (∀ k, k < 2 * GridWidth * GridHeight - 1 →
      ∃ g, run GridWidth GridHeight ((List.range k).map (fun _ => 0)) = some g ∧
        g.stack ≠ []) ∧
    (∃ g, run GridWidth GridHeight
        ((List.range (2 * GridWidth * GridHeight - 1)).map (fun _ => 0)) = some g ∧
      g.stack = []) ∧
    (∃ g0, NewGame GridWidth GridHeight = some (g0, none) ∧
      countSteps GridWidth GridHeight (carves GridWidth GridHeight) g0
        ((List.range (2 * GridWidth * GridHeight - 1)).map (fun _ => 0)) =
          GridWidth * GridHeight - 1 ∧
      countSteps GridWidth GridHeight (backtracks GridWidth GridHeight) g0
        ((List.range (2 * GridWidth * GridHeight - 1)).map (fun _ => 0)) =
          GridWidth * GridHeight) ∧
    2 * GridWidth * GridHeight - 1 = 799 :=
  ⟨by decide, by decide,
    exact_run_length GridWidth GridHeight (by decide) (by decide) (fun _ => 0)⟩

/-! ## Acyclicity and enclosure -/

/-- C19. Acyclicity invariant: in every state reachable from `NewGame()` by `step()`, the
number of open boundaries between adjacent cells equals the number of visited cells minus
1, and every open boundary joins two visited cells. -/
theorem acyclicity_invariant (W H : Nat) (g : Game) (hr : Reachable W H g) :
    openCount W H g.grid = visitedCount W H g.grid - 1 ∧
      1 ≤ visitedCount W H g.grid ∧
      ∀ e ∈ openBoundaries W H g.grid,
        visitedAt g.grid e.1 = true ∧ visitedAt g.grid (nbr e.1 e.2) = true := by
  have hi := Inv_of_Reachable hr
  have hc := hi.count
  refine ⟨by omega, by omega, ?_⟩
  intro e he
  unfold openBoundaries at he
  rw [Finset.mem_filter, mem_boundaries] at he
  exact hi.openVisited e.1 e.2 he.1.1 he.1.2.2 he.2

theorem acyclicity_invariant_witness :
    ∃ g, run 2 2 [0, 0] = some g ∧
      openCount 2 2 g.grid = visitedCount 2 2 g.grid - 1 ∧
      1 ≤ visitedCount 2 2 g.grid ∧
      ∀ e ∈ openBoundaries 2 2 g.grid,
        visitedAt g.grid e.1 = true ∧ visitedAt g.grid (nbr e.1 e.2) = true :=
  ⟨_, rfl, acyclicity_invariant 2 2 _ ⟨[0, 0], rfl⟩⟩

/-- C20. The maze stays enclosed: in every state reachable from `NewGame()` by `step()`,
every wall on the outer boundary of the grid is intact: the North wall of every cell with
`y == 0`, the South wall of every cell with `y == H-1`, the West wall of every cell with
`x == 0` and the East wall of every cell with `x == W-1` are `true`. -/
theorem maze_stays_enclosed (W H : Nat) (g : Game) (hr : Reachable W H g) (x y : Int)
    (hb : inBounds W H (x, y)) :
    (y = 0 → wallAt g.grid (x, y) 0 = true) ∧
      (y = (H : Int) - 1 → wallAt g.grid (x, y) 2 = true) ∧
      (x = 0 → wallAt g.grid (x, y) 3 = true) ∧
      (x = (W : Int) - 1 → wallAt g.grid (x, y) 1 = true) := by
  have hp := PathInv_of_Reachable hr
  have hN : nbr (x, y) 0 = (x, y - 1) := by simp [nbr, delta, sub_eq_add_neg]
  have hE : nbr (x, y) 1 = (x + 1, y) := by simp [nbr, delta]
  have hS : nbr (x, y) 2 = (x, y + 1) := by simp [nbr, delta]
  have hWe : nbr (x, y) 3 = (x - 1, y) := by simp [nbr, delta, sub_eq_add_neg]
  refine ⟨?_, ?_, ?_, ?_⟩
  · intro h
    refine hp.outer (x, y) 0 hb ?_
    rw [hN]
    rintro ⟨_, _, h3, _⟩
    simp only at h3
    omega
  · intro h
    refine hp.outer (x, y) 2 hb ?_
    rw [hS]
    rintro ⟨_, _, _, h4⟩
    simp only at h4
    omega
  · intro h
    refine hp.outer (x, y) 3 hb ?_
    rw [hWe]
    rintro ⟨h1, _, _, _⟩
    simp only at h1
    omega
  · intro h
    refine hp.outer (x, y) 1 hb ?_
    rw [hE]
    rintro ⟨_, h2, _, _⟩
    simp only at h2
    omega

theorem maze_stays_enclosed_witness :
    ∃ g, run 2 2 [0, 0, 0, 0, 0, 0, 0] = some g ∧ inBounds 2 2 (1, 1) ∧
      wallAt g.grid (1, 1) 2 = true ∧ wallAt g.grid (1, 1) 1 = true := by
  refine ⟨_, rfl, by decide, ?_⟩
  have h := maze_stays_enclosed 2 2 _ ⟨[0, 0, 0, 0, 0, 0, 0], rfl⟩ 1 1 (by decide)
  exact ⟨h.2.1 (by decide), h.2.2.2 (by decide)⟩

end Maze
